import Mathlib

/-! UoB-FFT-Demon: the spectral transform / mask / reconstruct pipeline.

A shallow embedding of `src/src/main.cpp`.  A single-channel image is a grid with one cell
per (row, column); OpenCV calls are modelled by their effect on such grids, numeric ones in
exact real and complex arithmetic; the single-precision side computation of the resize
policy is modelled exactly on the rationals, and the frame loop runs against a record of
what the clock, the video source, the keyboard and the pointer deliver.
-/

namespace FFTDemon

/-! ## Data model -/

/-- The cells of a single-channel image with `rows` rows and `cols` columns: the cell at
(row, column). -/
abbrev Grid (rows cols : Nat) (α : Type) : Type := Fin rows → Fin cols → α

/-- A single-channel cv::Mat whose size is a run-time value: `rows`, `cols` and the cells. -/
structure Mat (α : Type) where
  rows : Nat
  cols : Nat
  data : Grid rows cols α

/-- A cv::Rect(x, y, width, height): `x` is the first column, `y` the first row. -/
structure Rect where
  x : Nat
  y : Nat
  width : Nat
  height : Nat

namespace Grid

variable {α β γ : Type} {R C : Nat}

/-- Build a grid from a function on (row, column) numbers. -/
def ofFn (R C : Nat) (f : Nat → Nat → α) : Grid R C α := fun r c => f r.val c.val

/-- The rows of a grid as lists, top to bottom (for reading concrete grids). -/
def toLists (g : Grid R C α) : List (List α) :=
  List.ofFn fun r => List.ofFn fun c => g r c

/-- The cell at (r, c) when it is inside the grid. -/
def get? (g : Grid R C α) (r c : Nat) : Option α :=
  if h : r < R ∧ c < C then some (g ⟨r, h.1⟩ ⟨c, h.2⟩) else none

/-- The contents seen through `cv::Mat(m, q)`, a region of interest; the constructor
requires the rectangle to lie inside `m`. -/
def roi (m : Grid R C α) (q : Rect) (hx : q.x + q.width ≤ C) (hy : q.y + q.height ≤ R) :
    Grid q.height q.width α :=
  fun r c => m ⟨q.y + r.val, by omega⟩ ⟨q.x + c.val, by omega⟩

/-- The effect on the parent grid `dst` of `src.copyTo(view)`, where `view` is the region of
interest of `dst` with top-left column `x`, top-left row `y` and the size of `src`: the cells
of the view take the cells of `src`, all others stay (an empty `src` copies nothing). -/
def copyToRoi {h w : Nat} (dst : Grid R C α) (x y : Nat) (src : Grid h w α) : Grid R C α :=
  fun r c =>
    if hin : (y ≤ r.val ∧ r.val - y < h) ∧ (x ≤ c.val ∧ c.val - x < w) then
      src ⟨r.val - y, hin.1.2⟩ ⟨c.val - x, hin.2.2⟩
    else dst r c

/-- `src.copyTo(dst, mask)` into a freshly allocated `dst`: the destination is created with
the size of `src` and zero-filled, then the cells whose mask byte is non-zero are copied.
OpenCV requires the mask to have the size of `src`. -/
def copyToMasked [Zero α] (src : Grid R C α) (mask : Grid R C Nat) : Grid R C α :=
  fun r c => if mask r c ≠ 0 then src r c else 0

/-- The cells of `cv::Mat::ones(rows, cols, CV_8UC1)`. -/
def ones : Grid R C Nat := fun _ _ => 1

/-- The cells of `cv::Mat::zeros(rows, cols, CV_32F)`. -/
def zeros : Grid R C ℝ := fun _ _ => 0

/-- Apply a function to every cell (an elementwise OpenCV operation). -/
def map (f : α → β) (m : Grid R C α) : Grid R C β := fun r c => f (m r c)

/-- Combine two grids of one size cell by cell. -/
def zipWith (f : α → β → γ) (a : Grid R C α) (b : Grid R C β) : Grid R C γ :=
  fun r c => f (a r c) (b r c)

/-- `cv::flip(m, m, -1)`: reversal of both axes. -/
def flipBoth (m : Grid R C α) : Grid R C α :=
  fun r c => m ⟨R - 1 - r.val, by omega⟩ ⟨C - 1 - c.val, by omega⟩

end Grid

/-- `cv::Mat::ones(rows, cols, CV_8UC1)`. -/
def Mat.ones (rows cols : Nat) : Mat Nat :=
  { rows := rows, cols := cols, data := Grid.ones }

/-- The cell of a run-time-sized grid at (r, c) when it is inside the grid. -/
def Mat.get? {α : Type} (m : Mat α) (r c : Nat) : Option α := m.data.get? r c

/-- A 3 × 5 grid numbered row by row, for concrete instances. -/
def sampleGrid : Grid 3 5 Nat := Grid.ofFn 3 5 fun r c => 5 * r + c

/-! ## Centering remap -/

/-- `swap_quads` (main.cpp 87-106): with `cx = cols / 2`, `cy = rows / 2`, the four
`cx × cy` regions q0 (top-left), q1 (top-right), q2 (bottom-left), q3 (bottom-right) of the
grid are exchanged through a temporary: q0 with q3, then q1 with q2. -/
def swap_quads {α : Type} {R C : Nat} (source : Grid R C α) : Grid R C α :=
  let cx := C / 2
  let cy := R / 2
  have hx : cx + cx ≤ C := by omega
  have hy : cy + cy ≤ R := by omega
  have hx0 : 0 + cx ≤ C := by omega
  have hy0 : 0 + cy ≤ R := by omega
  -- q0.copyTo(tmp)
  let tmp := source.roi ⟨0, 0, cx, cy⟩ hx0 hy0
  -- q3.copyTo(q0)
  let s1 := source.copyToRoi 0 0 (source.roi ⟨cx, cy, cx, cy⟩ hx hy)
  -- tmp.copyTo(q3)
  let s2 := s1.copyToRoi cx cy tmp
  -- q1.copyTo(tmp)
  let tmp1 := s2.roi ⟨cx, 0, cx, cy⟩ hx hy0
  -- q2.copyTo(q1)
  let s3 := s2.copyToRoi cx 0 (s2.roi ⟨0, cy, cx, cy⟩ hx0 hy)
  -- tmp.copyTo(q2)
  s3.copyToRoi 0 cy tmp1

/-- Where `swap_quads` takes the cell it leaves at (r, c) from, in a grid of `rows × cols`:
inside the even-sized block covered by the four quadrants the two halves of each axis trade
places; a last odd row or column is outside every quadrant and stays. -/
def swapCell (rows cols r c : Nat) : Nat × Nat :=
  if r < rows / 2 + rows / 2 ∧ c < cols / 2 + cols / 2 then
    (if r < rows / 2 then r + rows / 2 else r - rows / 2,
     if c < cols / 2 then c + cols / 2 else c - cols / 2)
  else (r, c)

/-! ## Transform engine -/

/-- A floating-point image as the transform sees it: one channel (a real plane) or two
channels (channel 0 the real part, channel 1 the imaginary part of each cell). -/
inductive Image (R C : Nat) where
  | real (m : Grid R C ℝ)
  | complex (m : Grid R C ℂ)

/-- OpenCV `cv::DFT_INVERSE`. -/
def DFT_INVERSE : Nat := 1

/-- OpenCV `cv::DFT_SCALE`. -/
def DFT_SCALE : Nat := 2

/-- OpenCV `cv::DFT_COMPLEX_OUTPUT`. -/
def DFT_COMPLEX_OUTPUT : Nat := 16

/-- OpenCV `cv::DFT_REAL_OUTPUT`. -/
def DFT_REAL_OUTPUT : Nat := 32

/-- `cv::merge` of a real and an imaginary plane into two channels. -/
def merge {R C : Nat} (re im : Grid R C ℝ) : Grid R C ℂ :=
  Grid.zipWith (fun x y => (⟨x, y⟩ : ℂ)) re im

/-- The factor `exp(∓2πi·k/n)` of the discrete transform: minus for the forward transform,
plus for the inverse one. -/
noncomputable def twiddle (inverse : Bool) (n k : Nat) : ℂ :=
  Complex.exp ((if inverse then 1 else -1) * (2 * Real.pi * Complex.I * k / n))

/-- The unscaled two-dimensional discrete Fourier sum, in exact complex arithmetic:
`Y(u, v) = Σ_r Σ_c X(r, c) · exp(∓2πi·u·r/rows) · exp(∓2πi·v·c/cols)`. -/
noncomputable def dftSum {R C : Nat} (inverse : Bool) (x : Grid R C ℂ) : Grid R C ℂ :=
  fun u v =>
    ∑ r : Fin R, ∑ c : Fin C,
      x r c * twiddle inverse R (u.val * r.val) * twiddle inverse C (v.val * c.val)

/-- `cv::dft(src, dst, flags)` in exact arithmetic, for the flag bits the program can set.
The transform is the inverse one only when the `DFT_INVERSE` bit is set and is divided by the
cell count only when the `DFT_SCALE` bit is set.  The result has one channel only for an
inverse transform of a two-channel source with `DFT_REAL_OUTPUT` (OpenCV then assumes a
conjugate-symmetric source, for which the real part is the result); a forward transform of a
two-channel source stays two-channel whatever the output bits are.  A one-channel source is
covered for the forward transform with `DFT_COMPLEX_OUTPUT`; an empty source and the packed
real-to-real forms are outside the model (`none`). -/
noncomputable def dft {R C : Nat} (src : Image R C) (flags : Nat) : Option (Image R C) :=
  let inv : Bool := decide (flags &&& DFT_INVERSE ≠ 0)
  let scaled : Bool := decide (flags &&& DFT_SCALE ≠ 0)
  let finish : Grid R C ℂ → Grid R C ℂ := fun y =>
    if scaled then y.map (fun z => z / ((R : ℂ) * (C : ℂ))) else y
  if R = 0 ∨ C = 0 then none
  else
    match src with
    | Image.complex x =>
      if inv = true ∧ flags &&& DFT_REAL_OUTPUT ≠ 0 then
        some (Image.real ((finish (dftSum inv x)).map Complex.re))
      else some (Image.complex (finish (dftSum inv x)))
    | Image.real g =>
      if inv = false ∧ flags &&& DFT_COMPLEX_OUTPUT ≠ 0 then
        some (Image.complex (finish (dftSum inv (g.map (fun x : ℝ => (x : ℂ))))))
      else none

/-- `FFT` (main.cpp 20-33): with `flag == cv::DFT_COMPLEX_OUTPUT` the input is converted to a
float plane, merged with a zero plane of the same size and transformed; with any other flag
the input is handed to `cv::dft` as it is. -/
noncomputable def FFT {R C : Nat} (input : Image R C) (flag : Nat) : Option (Image R C) :=
  if flag = DFT_COMPLEX_OUTPUT then
    match input with
    | Image.real g => dft (Image.complex (merge g Grid.zeros)) flag
    | Image.complex _ => none
  else dft input flag

/-- The plane `reverse_components[0]` that `cv::split` yields: the only channel of a
one-channel image, the real channel of a two-channel one. -/
def Image.plane0 {R C : Nat} : Image R C → Grid R C ℝ
  | Image.real m => m
  | Image.complex m => m.map Complex.re

/-- `cv::flip(input, input, -1)` on either kind of image. -/
def Image.flipBoth {R C : Nat} : Image R C → Image R C
  | Image.real m => Image.real m.flipBoth
  | Image.complex m => Image.complex m.flipBoth

/-! ## Spectrum decomposition -/

/-- The magnitude that `cv::cartToPolar` gives for the point (x, y). -/
noncomputable def polarMagnitude (x y : ℝ) : ℝ := Real.sqrt (x ^ 2 + y ^ 2)

/-- The angle that `cv::cartToPolar` gives for the point (x, y), exactly: `atan2(y, x)` in
radians taken in `[0, 2π)`, and 0 for the origin. -/
noncomputable def polarAngle (x y : ℝ) : ℝ :=
  if Complex.arg ⟨x, y⟩ < 0 then Complex.arg ⟨x, y⟩ + 2 * Real.pi else Complex.arg ⟨x, y⟩

/-- `information_extraction` (main.cpp 108-127): split the spectrum into its planes, take
magnitude and phase with `cv::cartToPolar`, then add one to the magnitude and take the
logarithm in place (`magI` shares its data with `output_mag`).  Returns
`(output_mag, output_phase)`. -/
noncomputable def information_extraction {R C : Nat} (complexI : Grid R C ℂ) :
    Grid R C ℝ × Grid R C ℝ :=
  let planes0 := complexI.map Complex.re
  let planes1 := complexI.map Complex.im
  let output_mag := Grid.zipWith polarMagnitude planes0 planes1
  let output_phase := Grid.zipWith polarAngle planes0 planes1
  let magI := (output_mag.map (fun m => m + 1)).map Real.log
  (magI, output_phase)

/-- `information_injection` (main.cpp 129-149): exponentiate the log-magnitude in place,
subtract one, convert (magnitude, phase) to (real, imaginary) with `cv::polarToCart` and merge
the two planes. -/
noncomputable def information_injection {R C : Nat} (input_mag input_phase : Grid R C ℝ) :
    Grid R C ℂ :=
  let mag := (input_mag.map Real.exp).map (fun m => m - 1)
  let real := Grid.zipWith (fun m p => m * Real.cos p) mag input_phase
  let imaginary := Grid.zipWith (fun m p => m * Real.sin p) mag input_phase
  merge real imaginary

/-! ## Visualisation and the per-frame pipeline -/

/-- The `visual_type` enumeration. -/
inductive visual_type where
  | GET_MAG
  | GET_PHASE
  | GET_IMG
  deriving DecidableEq

/-- A displayed colour (blue, green, red bytes). -/
abbrev Colour : Type := Nat × Nat × Nat

/-- The two OpenCV display conversions of `visualise`, taken as parameters: `normalize` is
`cv::normalize(input, visual, 0, 255, CV_MINMAX, ...)`, which maps each cell to a byte
through the minimum and maximum of the whole input, and `colourMap` is the table of
`cv::applyColorMap(..., COLORMAP_JET)`. -/
structure Display where
  normalize : {R C : Nat} → Grid R C ℝ → ℝ → Nat
  colourMap : Nat → Colour

/-- `visualise` (main.cpp 151-162), returning the image handed to `cv::imshow`: the input is
normalised to bytes; unless the flag is `GET_IMG` it is colour-mapped, and for `GET_MAG` the
coloured image has its quadrants swapped.  A grey image is shown with equal colour bytes. -/
def visualise {R C : Nat} (d : Display) (input : Grid R C ℝ) (flag : visual_type) :
    Grid R C Colour :=
  let visual := input.map (d.normalize input)
  if flag ≠ visual_type.GET_IMG then
    let visual := visual.map d.colourMap
    if flag = visual_type.GET_MAG then swap_quads visual else visual
  else visual.map (fun v => (v, v, v))

/-- What one call of `frame_analysis` leaves behind: the mask, the recomposed spectrum
`output`, the flipped result written back to `input`, and the three windows. -/
structure FrameResult (R C : Nat) where
  mask : Grid R C Nat
  masked_magnitude_spectrum : Grid R C ℝ
  output : Grid R C ℂ
  input : Image R C
  magnitudeWindow : Grid R C Colour
  angleWindow : Grid R C Colour
  reverseWindow : Grid R C Colour

/-- The spectrum that `frame_analysis` extracts magnitude and phase from. -/
noncomputable def forwardSpectrum {R C : Nat} (grey : Grid R C ℝ) : Grid R C ℂ :=
  dftSum false (merge grey Grid.zeros)

/-- `frame_analysis` (main.cpp 204-237) from the grey plane on (the result of `cv::cvtColor`),
for a mask of the size of the frame (the masked copy requires it): forward transform,
extraction, quadrant swap of the mask, masked copy of the magnitude into a fresh grid, the
two spectrum windows, second quadrant swap of the mask, injection, second transform with
`cv::DFT_REAL_OUTPUT`, flip of both axes and the output window.  `none` where an OpenCV call
rejects its argument (an empty frame). -/
noncomputable def frame_analysis {R C : Nat} (d : Display) (grey : Grid R C ℝ)
    (mask : Grid R C Nat) : Option (FrameResult R C) :=
  match FFT (Image.real grey) DFT_COMPLEX_OUTPUT with
  | some (Image.complex output) =>
    let magnitude_spectrum := (information_extraction output).1
    let phase_spectrum := (information_extraction output).2
    let mask1 := swap_quads mask
    let masked_magnitude_spectrum := magnitude_spectrum.copyToMasked mask1
    let magnitudeWindow := visualise d masked_magnitude_spectrum visual_type.GET_MAG
    let angleWindow := visualise d phase_spectrum visual_type.GET_PHASE
    let mask2 := swap_quads mask1
    let output2 := information_injection masked_magnitude_spectrum phase_spectrum
    match FFT (Image.complex output2) DFT_REAL_OUTPUT with
    | some input2 =>
      some
        { mask := mask2
          masked_magnitude_spectrum := masked_magnitude_spectrum
          output := output2
          input := input2.flipBoth
          magnitudeWindow := magnitudeWindow
          angleWindow := angleWindow
          reverseWindow := visualise d input2.flipBoth.plane0 visual_type.GET_IMG }
    | none => none
  | _ => none

/-- A grey frame of one row with the values 1, 2, 3, for concrete instances. -/
noncomputable def rampRow : Grid 1 3 ℝ := fun _ c => ((c.val + 1 : Nat) : ℝ)

/-! ## Mask store and interaction -/

/-- OpenCV `cv::EVENT_MOUSEMOVE`. -/
def EVENT_MOUSEMOVE : Int := 0

/-- OpenCV `cv::EVENT_LBUTTONDOWN`. -/
def EVENT_LBUTTONDOWN : Int := 1

/-- OpenCV `cv::EVENT_LBUTTONUP`. -/
def EVENT_LBUTTONUP : Int := 4

/-- OpenCV `cv::EVENT_RBUTTONDBLCLK`. -/
def EVENT_RBUTTONDBLCLK : Int := 8

/-- The horizontal run `ICV_HLINE` of OpenCV's drawing code: in row `y` the cells of the
columns `xl .. xr` (both included) take `color`.  The callers only pass runs inside the
image; cells outside the grid do not exist in the model. -/
def hline {α : Type} {R C : Nat} (img : Grid R C α) (y xl xr : Int) (color : α) :
    Grid R C α :=
  fun r c =>
    if (r.val : Int) = y ∧ xl ≤ (c.val : Int) ∧ (c.val : Int) ≤ xr then color else img r c

/-- The bitwise `v & mask` of C for the two values `mask` takes in OpenCV's `Circle`
routine: 0 (no bit set) and -1 (every bit set). -/
def andMask (v mask : Int) : Int := if mask = 0 then 0 else v

/-- The passes of the loop `while (dx >= dy)` of OpenCV's `Circle` routine, as the list of the
`(dx, dy)` pairs the body sees.  The counters `err`, `plus`, `minus` follow the routine:
after a pass `dy++; err += plus; plus += 2; mask = (err <= 0) - 1; err -= minus & mask;
dx += mask; minus -= mask & 2`.  They do not depend on the image.  `fuel` bounds the number
of passes. -/
def circlePasses : Nat → Int → Int → Int → Int → Int → List (Int × Int)
  | 0, _, _, _, _, _ => []
  | fuel + 1, err, dx, dy, plus, minus =>
    if dx ≥ dy then
      let dy1 := dy + 1
      let err1 := err + plus
      let plus1 := plus + 2
      let mask : Int := (if err1 ≤ 0 then 1 else 0) - 1
      (dx, dy) ::
        circlePasses fuel (err1 - andMask minus mask) (dx + mask) dy1 plus1
          (minus - andMask 2 mask)
    else []

/-- The body of one pass of OpenCV's `Circle` routine with `fill` set, for the centre
`(cx, cy)` and the pass `(dx, dy)`: four horizontal runs, drawn unclipped when the whole
circle is `inside` the image and clipped to the image otherwise. -/
def circlePass {α : Type} {R C : Nat} (color : α) (cx cy : Int) (inside : Bool)
    (img : Grid R C α) (p : Int × Int) : Grid R C α :=
  let dx := p.1
  let dy := p.2
  let width : Int := C
  let height : Int := R
  let y11 := cy - dy
  let y12 := cy + dy
  let y21 := cy - dx
  let y22 := cy + dx
  let x11 := cx - dx
  let x12 := cx + dx
  let x21 := cx - dy
  let x22 := cx + dy
  if inside then
    let img := hline img y11 x11 x12 color
    let img := hline img y12 x11 x12 color
    let img := hline img y21 x21 x22 color
    hline img y22 x21 x22 color
  else if x11 < width ∧ x12 ≥ 0 ∧ y21 < height ∧ y22 ≥ 0 then
    let x11 := max x11 0
    let x12 := min x12 (width - 1)
    let img := if 0 ≤ y11 ∧ y11 < height then hline img y11 x11 x12 color else img
    let img := if 0 ≤ y12 ∧ y12 < height then hline img y12 x11 x12 color else img
    if x21 < width ∧ x22 ≥ 0 then
      let x21 := max x21 0
      let x22 := min x22 (width - 1)
      let img := if 0 ≤ y21 ∧ y21 < height then hline img y21 x21 x22 color else img
      if 0 ≤ y22 ∧ y22 < height then hline img y22 x21 x22 color else img
    else img
  else img

/-- `cv::circle(img, Point(x, y), radius, color, thickness)` with the default line type and
shift, for a negative `thickness` (a filled circle): OpenCV's `Circle` routine with `fill`
set, starting from `err = 0, dx = radius, dy = 0, plus = 1, minus = 2·radius − 1`.  The loop
ends after at most `radius + 1` passes, since `dy` grows by one each pass and `dx` never
grows. -/
def circle {α : Type} {R C : Nat} (img : Grid R C α) (x y : Int) (radius : Nat) (color : α) :
    Grid R C α :=
  let r : Int := radius
  let width : Int := C
  let height : Int := R
  let inside : Bool := decide (x ≥ r ∧ x < width - r ∧ y ≥ r ∧ y < height - r)
  (circlePasses (radius + 1) 0 r 0 1 (2 * r - 1)).foldl (circlePass color x y inside) img

/-- `MouseControl` (main.cpp 189-202) on the global `drawing` flag and the mask behind
`userdata`; returns the new flag and the new mask.  The `flags` argument is not read. -/
def MouseControl (event : Int) (x y : Int) (_flags : Int) (drawing : Bool) (image : Mat Nat) :
    Bool × Mat Nat :=
  let drawing := if event = EVENT_LBUTTONDOWN then true else drawing
  let image := if drawing then { image with data := circle image.data x y 20 0 } else image
  let drawing := if event = EVENT_LBUTTONUP then false else drawing
  let image := if event = EVENT_RBUTTONDBLCLK then Mat.ones image.rows image.cols else image
  (drawing, image)

/-- Whether the four runs of the pass `(dx, dy)` of the circle routine, for the centre
`(cx, cy)`, cover the cell in row `r`, column `c`. -/
def inPass (cx cy : Int) (p : Int × Int) (r c : Int) : Prop :=
  ((r = cy - p.2 ∨ r = cy + p.2) ∧ cx - p.1 ≤ c ∧ c ≤ cx + p.1) ∨
    ((r = cy - p.1 ∨ r = cy + p.1) ∧ cx - p.2 ≤ c ∧ c ≤ cx + p.2)

instance (cx cy : Int) (p : Int × Int) (r c : Int) : Decidable (inPass cx cy p r c) := by
  unfold inPass
  infer_instance

/-- The passes of the circle routine for the radius 20 of `MouseControl`. -/
def passes20 : List (Int × Int) :=
  [(20, 0), (19, 1), (19, 2), (19, 3), (19, 4), (19, 5), (19, 6), (18, 7), (18, 8), (17, 9),
    (17, 10), (16, 11), (16, 12), (15, 13), (14, 14)]

/-! ## Single-precision arithmetic and the resize policy -/

/-- Rounding of a rational number to the nearest single-precision `float` (IEEE 754 binary32:
24 significant bits, ties to the even significand), as an exact rational.  Valid in the
normal range `2^-126 ≤ |q| < 2^128`, which holds every value the resize policy forms from
32-bit sizes. -/
def roundF32 (q : ℚ) : ℚ :=
  if q = 0 then 0
  else
    let a := |q|
    let ulp : ℚ := 2 ^ (Int.log 2 a - 23)
    let t := a / ulp
    let f := ⌊t⌋
    let m : ℤ :=
      if t - f < 1 / 2 then f
      else if 1 / 2 < t - f then f + 1
      else if f % 2 = 0 then f
      else f + 1
    if 0 < q then m * ulp else -(m * ulp)

/-- The C expression `(int)floorf((float)other * ((float)max_dim / (float)over))` of
`resize_limit`: two conversions, a single-precision division, a single-precision product,
the floor (exact) and the conversion back to `int`. -/
def scaledSide (other : Nat) (max_dim : Int) (over : Nat) : Int :=
  ⌊roundF32 (roundF32 other * roundF32 (roundF32 max_dim / roundF32 over))⌋

/-- The size of a video frame; the pixels play no part in the resize policy or in the
frame loop. -/
structure Frame where
  rows : Nat
  cols : Nat
  deriving DecidableEq, Repr

/-- How a run of a piece of the program ends: normally with a value, with an uncaught OpenCV
exception, with a hardware trap (integer division by zero), or not within the given number
of steps. -/
inductive Run (α : Type) where
  | finished (a : α)
  | raised
  | trapped
  | exhausted
  deriving DecidableEq, Repr

/-- `cv::resize(input, input, cv::Size(width, height))` on the frame size: OpenCV raises an
error for an empty source and for an empty target size (the scale factors are left at 0). -/
def resize (input : Frame) (width height : Int) : Option Frame :=
  if input.rows = 0 ∨ input.cols = 0 ∨ width ≤ 0 ∨ height ≤ 0 then none
  else some { rows := height.toNat, cols := width.toNat }

/-- `resize_limit` (main.cpp 70-85) on the frame size; `fuel` bounds the depth of the
recursion. -/
def resize_limit : Nat → Frame → Int → Run Frame
  | 0, _, _ => Run.exhausted
  | fuel + 1, input, max_dim =>
    if (input.cols : Int) > max_dim then
      let new_dim := scaledSide input.rows max_dim input.cols
      match resize input max_dim new_dim with
      | none => Run.raised
      | some input1 => resize_limit fuel input1 max_dim
    else if (input.rows : Int) > max_dim then
      let new_dim := scaledSide input.cols max_dim input.rows
      match resize input new_dim max_dim with
      | none => Run.raised
      | some input1 => resize_limit fuel input1 max_dim
    else Run.finished input

/-! ## The frame loop -/

/-- `EXIT_SUCCESS` of the C library. -/
def EXIT_SUCCESS : Int := 0

/-- `EXIT_FAILURE` of the C library. -/
def EXIT_FAILURE : Int := 1

/-- A pointer event as the window system hands it to the mouse callback. -/
structure PointerEvent where
  event : Int
  x : Int
  y : Int
  flags : Int

/-- Everything outside the program that `video_loop` consults, indexed by the number of the
call: the nominal frame rate `(int)video_source.get(cv::CAP_PROP_FPS)`, the platform constant
`CLOCKS_PER_SEC`, the values of successive `clock()` calls, the outcomes of successive
`video_source.read(frame)` calls (`none` when the read fails), the key codes of successive
`cv::waitKey(1)` calls (negative when no key was pressed) and the pointer events dispatched
to the callback while each `cv::waitKey` runs. -/
structure World where
  fps_of_video : Int
  CLOCKS_PER_SEC : Int
  clock : Nat → Int
  read : Nat → Option Frame
  waitKey : Nat → Int
  pointer : Nat → List PointerEvent

/-- The variables of `video_loop` together with the global `drawing` flag, and three
counters of what has happened: the `clock()`, `read` and `waitKey` calls made so far and the
completed calls of `frame_analysis`. -/
structure LoopState where
  begin_sec : Int
  begin_ : Int
  end_ : Int
  count : Nat
  FPS : Nat
  first : Bool
  mask : Mat Nat
  drawing : Bool
  clockCalls : Nat
  readCalls : Nat
  keyCalls : Nat
  analysed : Nat

/-- The effect of `frame_analysis` on the mask, which the size of the frame alone decides:
the mask has its quadrants swapped, the masked copy requires it to have the size of the
magnitude spectrum (the size of the frame), and it is swapped again.  `none` when OpenCV
rejects the frame (empty) or the mask (another size). -/
def frameAnalysisMask (frame : Frame) (mask : Mat Nat) : Option (Mat Nat) :=
  if frame.rows = 0 ∨ frame.cols = 0 then none
  else
    let mask1 : Mat Nat := { mask with data := swap_quads mask.data }
    if mask1.rows = frame.rows ∧ mask1.cols = frame.cols then
      some { mask1 with data := swap_quads mask1.data }
    else none

/-- The pointer events of one `cv::waitKey` call, handled one after the other by
`MouseControl` on the `drawing` flag and the mask. -/
def dispatch (events : List PointerEvent) (drawing : Bool) (mask : Mat Nat) : Bool × Mat Nat :=
  events.foldl (fun s e => MouseControl e.event e.x e.y e.flags s.1 s.2) (drawing, mask)

/-- The `while (true)` loop of `video_loop` (main.cpp 253-283), at most `fuel` passes, with
`depth` bounding the recursion of `resize_limit`.  A pass whose time gate
`(end - begin) / wait >= 1` is shut only reads the clock; a pass whose gate is open reads a
frame and returns `EXIT_FAILURE` when the read fails, else resizes, creates the mask on the
first frame, analyses and polls the keyboard, leaving with `EXIT_SUCCESS` on a key.  The
division uses C's truncation; dividing by a zero `wait` traps. -/
def video_loop_passes (w : World) (wait : Int) (depth : Nat) :
    Nat → LoopState → Run (Int × LoopState)
  | 0, _ => Run.exhausted
  | fuel + 1, s =>
    if wait = 0 then Run.trapped
    else if (s.end_ - s.begin_).tdiv wait ≥ 1 then
      let s :=
        if (s.end_ - s.begin_sec).tdiv w.CLOCKS_PER_SEC ≥ 1 then
          { s with FPS := s.count, count := 0, begin_sec := w.clock s.clockCalls,
                   clockCalls := s.clockCalls + 1 }
        else s
      let s := { s with begin_ := w.clock s.clockCalls, clockCalls := s.clockCalls + 1 }
      match w.read s.readCalls with
      | none => Run.finished (EXIT_FAILURE, { s with readCalls := s.readCalls + 1 })
      | some frame0 =>
        let s := { s with readCalls := s.readCalls + 1 }
        match resize_limit depth frame0 360 with
        | Run.finished frame =>
          let s :=
            if s.first then { s with mask := Mat.ones frame.rows frame.cols, first := false }
            else s
          match frameAnalysisMask frame s.mask with
          | none => Run.raised
          | some mask =>
            let s := { s with mask := mask, analysed := s.analysed + 1 }
            let key := w.waitKey s.keyCalls
            let dm := dispatch (w.pointer s.keyCalls) s.drawing s.mask
            let s := { s with drawing := dm.1, mask := dm.2, keyCalls := s.keyCalls + 1 }
            if key ≥ 0 then Run.finished (EXIT_SUCCESS, s)
            else
              let s := { s with count := s.count + 1 }
              video_loop_passes w wait depth fuel
                { s with end_ := w.clock s.clockCalls, clockCalls := s.clockCalls + 1 }
        | Run.raised => Run.raised
        | Run.trapped => Run.trapped
        | Run.exhausted => Run.exhausted
    else
      video_loop_passes w wait depth fuel
        { s with end_ := w.clock s.clockCalls, clockCalls := s.clockCalls + 1 }

/-- `video_loop` (main.cpp 239-287): the frame rate is read, three `clock()` calls initialise
`begin_sec`, `begin` and `end`, `wait = CLOCKS_PER_SEC / fps_of_video` (an integer division,
which traps on a zero frame rate), the mask starts empty and the loop runs.  The starting
value of the global `drawing` flag is given. -/
def video_loop (w : World) (drawing : Bool) (fuel depth : Nat) : Run (Int × LoopState) :=
  if w.fps_of_video = 0 then Run.trapped
  else
    let wait := w.CLOCKS_PER_SEC.tdiv w.fps_of_video
    video_loop_passes w wait depth fuel
      { begin_sec := w.clock 0
        begin_ := w.clock 1
        end_ := w.clock 2
        count := 0
        FPS := 0
        first := true
        mask := { rows := 0, cols := 0, data := fun r _ => r.elim0 }
        drawing := drawing
        clockCalls := 3
        readCalls := 0
        keyCalls := 0
        analysed := 0 }

/-- A world for concrete runs: 25 frames per second, 1000 clock ticks per second, a clock
that advances 7 ticks per call, one frame of 240 × 320 and then a failed read, no key and no
pointer event. -/
def steadyWorld : World :=
  { fps_of_video := 25
    CLOCKS_PER_SEC := 1000
    clock := fun k => 7 * k
    read := fun k => if k = 0 then some { rows := 240, cols := 320 } else none
    waitKey := fun _ => -1
    pointer := fun _ => [] }

/-- The same world with a source that reports the frame rate 0. -/
def zeroRateWorld : World := { steadyWorld with fps_of_video := 0 }

/-- The same world with a first frame of 1 row and 1000 columns. -/
def thinFrameWorld : World :=
  { steadyWorld with read := fun k => if k = 0 then some { rows := 1, cols := 1000 } else none }

/-! ## Lemmas and theorems -/

theorem swapCell_fst_lt {rows cols r c : Nat} (h : r < rows) :
    (swapCell rows cols r c).1 < rows := by
  unfold swapCell
  split_ifs <;> simp only [] <;> omega

theorem swapCell_snd_lt {rows cols r c : Nat} (h : c < cols) :
    (swapCell rows cols r c).2 < cols := by
  unfold swapCell
  split_ifs <;> simp only [] <;> omega

theorem swapCell_swapCell (rows cols r c : Nat) :
    swapCell rows cols (swapCell rows cols r c).1 (swapCell rows cols r c).2 = (r, c) := by
  unfold swapCell
  split_ifs <;> refine Prod.ext ?_ ?_ <;> simp only [] <;> omega

/-- Cell by cell, `swap_quads` reads the source at the swapped position. -/
theorem swap_quads_apply {α : Type} {R C : Nat} (m : Grid R C α) (r : Fin R) (c : Fin C) :
    swap_quads m r c
      = m ⟨(swapCell R C r.val c.val).1, swapCell_fst_lt r.isLt⟩
          ⟨(swapCell R C r.val c.val).2, swapCell_snd_lt c.isLt⟩ := by
  obtain ⟨r, hr⟩ := r
  obtain ⟨c, hc⟩ := c
  simp only [swap_quads, Grid.copyToRoi, Grid.roi, swapCell]
  split_ifs <;>
    (refine congrArg₂ m (Fin.ext ?_) (Fin.ext ?_) <;> simp only [] <;> omega)

theorem swap_quads_swap_quads {α : Type} {R C : Nat} (g : Grid R C α) :
    swap_quads (swap_quads g) = g := by
  funext r c
  rw [swap_quads_apply, swap_quads_apply]
  have e := swapCell_swapCell R C r.val c.val
  refine congrArg₂ g (Fin.ext ?_) (Fin.ext ?_)
  · exact congrArg Prod.fst e
  · exact congrArg Prod.snd e

/-- Masked copy commutes with the quadrant swap applied to both the grid and the mask. -/
theorem swap_quads_copyToMasked {α : Type} [Zero α] {R C : Nat} (src : Grid R C α)
    (mask : Grid R C Nat) :
    swap_quads (src.copyToMasked mask) = (swap_quads src).copyToMasked (swap_quads mask) := by
  funext r c
  rw [swap_quads_apply]
  simp only [Grid.copyToMasked]
  rw [swap_quads_apply, swap_quads_apply]

theorem swap_quads_map {α β : Type} {R C : Nat} (f : α → β) (m : Grid R C α) :
    swap_quads (m.map f) = (swap_quads m).map f := by
  funext r c
  rw [swap_quads_apply]
  simp only [Grid.map]
  rw [swap_quads_apply]

theorem Grid.get?_eq_some {α : Type} {R C : Nat} (m : Grid R C α) (r c : Nat) (hr : r < R)
    (hc : c < C) : m.get? r c = some (m ⟨r, hr⟩ ⟨c, hc⟩) := by
  unfold Grid.get?
  rw [dif_pos ⟨hr, hc⟩]

/-- The cell `swap_quads` leaves at an in-range position, through `get?`. -/
theorem swap_quads_get? {α : Type} {R C : Nat} (g : Grid R C α) (r c : Nat) (hr : r < R)
    (hc : c < C) :
    (swap_quads g).get? r c = g.get? (swapCell R C r c).1 (swapCell R C r c).2 := by
  rw [Grid.get?_eq_some (swap_quads g) r c hr hc,
    Grid.get?_eq_some g _ _ (swapCell_fst_lt hr) (swapCell_snd_lt hc), swap_quads_apply]

/-! ### The two transform calls of `frame_analysis` -/

/-- The forward call `FFT(grey, output, cv::DFT_COMPLEX_OUTPUT)`: the unscaled forward sum of
the grey plane merged with a zero imaginary plane. -/
theorem FFT_complex_output {R C : Nat} (g : Grid R C ℝ) (h : ¬(R = 0 ∨ C = 0)) :
    FFT (Image.real g) DFT_COMPLEX_OUTPUT = some (Image.complex (forwardSpectrum g)) := by
  have b1 : (16 : Nat) &&& 1 = 0 := by decide
  have b2 : (16 : Nat) &&& 2 = 0 := by decide
  simp only [FFT, dft, forwardSpectrum, DFT_COMPLEX_OUTPUT, DFT_INVERSE, DFT_SCALE,
    DFT_REAL_OUTPUT, if_true, b1, b2, ne_eq, not_true_eq_false, decide_False, if_neg h,
    Bool.false_eq_true, false_and, if_false]

theorem FFT_complex_output_empty {R C : Nat} (g : Grid R C ℝ) (h : R = 0 ∨ C = 0) :
    FFT (Image.real g) DFT_COMPLEX_OUTPUT = none := by
  simp only [FFT, dft, if_true, if_pos h]

/-- The second call `FFT(output, input, cv::DFT_REAL_OUTPUT)`: the flag has no
`DFT_INVERSE` bit, so `cv::dft` computes the unscaled forward sum again and the result keeps
two channels. -/
theorem FFT_real_output {R C : Nat} (x : Grid R C ℂ) (h : ¬(R = 0 ∨ C = 0)) :
    FFT (Image.complex x) DFT_REAL_OUTPUT = some (Image.complex (dftSum false x)) := by
  have b1 : (32 : Nat) &&& 1 = 0 := by decide
  have b2 : (32 : Nat) &&& 2 = 0 := by decide
  have b3 : ¬((32 : Nat) = 16) := by decide
  simp only [FFT, dft, DFT_COMPLEX_OUTPUT, DFT_INVERSE, DFT_SCALE, DFT_REAL_OUTPUT, if_neg b3,
    b1, b2, ne_eq, not_true_eq_false, decide_False, if_neg h, Bool.false_eq_true, false_and,
    if_false]

/-- On a non-empty grey plane `frame_analysis` runs to its end, and what it leaves is: the
mask swapped twice, the magnitude copied under the swapped mask, and that copy visualised. -/
theorem frame_analysis_eq {R C : Nat} (d : Display) (grey : Grid R C ℝ) (mask : Grid R C Nat)
    (hne : ¬(R = 0 ∨ C = 0)) :
    ∃ out, frame_analysis d grey mask = some out ∧
      out.mask = swap_quads (swap_quads mask) ∧
      out.masked_magnitude_spectrum
        = (information_extraction (forwardSpectrum grey)).1.copyToMasked (swap_quads mask) ∧
      out.magnitudeWindow
        = visualise d out.masked_magnitude_spectrum visual_type.GET_MAG := by
  unfold frame_analysis
  rw [FFT_complex_output grey hne]
  simp only []
  rw [FFT_real_output _ hne]
  exact ⟨_, rfl, rfl, rfl, rfl⟩

/-- Whenever `frame_analysis` runs to its end, the frame was not empty and the results are as
`frame_analysis_eq` says. -/
theorem frame_analysis_inv {R C : Nat} (d : Display) (grey : Grid R C ℝ) (mask : Grid R C Nat)
    (out : FrameResult R C) (h : frame_analysis d grey mask = some out) :
    ¬(R = 0 ∨ C = 0) ∧
      out.mask = swap_quads (swap_quads mask) ∧
      out.masked_magnitude_spectrum
        = (information_extraction (forwardSpectrum grey)).1.copyToMasked (swap_quads mask) ∧
      out.magnitudeWindow
        = visualise d out.masked_magnitude_spectrum visual_type.GET_MAG := by
  by_cases hne : R = 0 ∨ C = 0
  · unfold frame_analysis at h
    rw [FFT_complex_output_empty grey hne] at h
    exact absurd h (by simp)
  · obtain ⟨o, ho, h1, h2, h3⟩ := frame_analysis_eq d grey mask hne
    rw [h] at ho
    simp only [Option.some.injEq] at ho
    subst ho
    exact ⟨hne, h1, h2, h3⟩

/-! ### Centering remap and mask application: the statements of the specification -/

/-- Masked copy under the swapped mask, seen centred: the swap of the result is the masked
copy of the centred grid under the stored mask. -/
theorem swap_quads_copyToMasked_swap {α : Type} [Zero α] {R C : Nat} (src : Grid R C α)
    (mask : Grid R C Nat) :
    swap_quads (src.copyToMasked (swap_quads mask)) = (swap_quads src).copyToMasked mask := by
  rw [swap_quads_copyToMasked, swap_quads_swap_quads]

theorem copyToMasked_get? {α : Type} [Zero α] {R C : Nat} (src : Grid R C α)
    (mask : Grid R C Nat) (r c : Nat) (h1 : r < R) (h2 : c < C) :
    (src.copyToMasked mask).get? r c
      = if mask.get? r c = some 0 then some 0 else src.get? r c := by
  rw [Grid.get?_eq_some (src.copyToMasked mask) r c h1 h2, Grid.get?_eq_some src r c h1 h2,
    Grid.get?_eq_some mask r c h1 h2]
  simp only [Grid.copyToMasked]
  by_cases h : mask ⟨r, h1⟩ ⟨c, h2⟩ = 0
  · simp [h]
  · simp [h]

/-- C1. `swap_quads` is its own inverse on every grid, whatever its row and column counts
(even, odd, 0 or 1): applying it twice gives back the grid, cell for cell.  Consequently the
mask that `frame_analysis` swaps before the masked copy and swaps again after the windows are
drawn is, whenever `frame_analysis` runs to its end, exactly the mask it was given; and it
does run to its end on every non-empty frame. -/
theorem C1_swap_quads_involution :
    (∀ (α : Type) (R C : Nat) (g : Grid R C α), swap_quads (swap_quads g) = g) ∧
    (∀ (R C : Nat) (d : Display) (grey : Grid R C ℝ) (mask : Grid R C Nat)
      (out : FrameResult R C), frame_analysis d grey mask = some out → out.mask = mask) ∧
    (∀ (R C : Nat) (d : Display) (grey : Grid R C ℝ) (mask : Grid R C Nat),
      1 ≤ R → 1 ≤ C → ∃ out, frame_analysis d grey mask = some out ∧ out.mask = mask) := by
  refine ⟨fun α R C g => swap_quads_swap_quads g, ?_, ?_⟩
  · intro R C d grey mask out h
    rw [(frame_analysis_inv d grey mask out h).2.1, swap_quads_swap_quads]
  · intro R C d grey mask h1 h2
    obtain ⟨out, ho, hm, -⟩ := frame_analysis_eq d grey mask (by omega)
    exact ⟨out, ho, by rw [hm, swap_quads_swap_quads]⟩

/-- The involution on a concrete 3 × 5 grid (odd in both directions). -/
theorem C1_swap_quads_involution_witness :
    swap_quads (swap_quads sampleGrid) = sampleGrid ∧
      (swap_quads sampleGrid).toLists
        = [[7, 8, 5, 6, 4], [2, 3, 0, 1, 9], [10, 11, 12, 13, 14]] :=
  ⟨C1_swap_quads_involution.1 Nat 3 5 sampleGrid, by decide⟩

/-- C2. `swap_quads` exchanges the diagonal quadrants at the floor-division midpoint: with
`cy = rows / 2` and `cx = cols / 2`, for all `r < cy` and `c < cx` the result has
`out(r, c) = in(r+cy, c+cx)`, `out(r+cy, c+cx) = in(r, c)`, `out(r, c+cx) = in(r+cy, c)` and
`out(r+cy, c) = in(r, c+cx)`, all of them cells of the grid; in particular with at least two
rows and two columns the cell (0, 0) ends up at the centre cell (rows / 2, cols / 2). -/
theorem C2_swap_quads_exchanges_quadrants :
    (∀ (α : Type) (R C : Nat) (g : Grid R C α) (r c : Nat), r < R / 2 → c < C / 2 →
      ((swap_quads g).get? r c = g.get? (r + R / 2) (c + C / 2) ∧
       (swap_quads g).get? (r + R / 2) (c + C / 2) = g.get? r c ∧
       (swap_quads g).get? r (c + C / 2) = g.get? (r + R / 2) c ∧
       (swap_quads g).get? (r + R / 2) c = g.get? r (c + C / 2)) ∧
      ((g.get? r c).isSome ∧ (g.get? (r + R / 2) (c + C / 2)).isSome ∧
       (g.get? r (c + C / 2)).isSome ∧ (g.get? (r + R / 2) c).isSome)) ∧
    (∀ (α : Type) (R C : Nat) (g : Grid R C α), 2 ≤ R → 2 ≤ C →
      (swap_quads g).get? (R / 2) (C / 2) = g.get? 0 0 ∧ (g.get? 0 0).isSome) := by
  constructor
  · intro α R C g r c hr hc
    have e1 : swapCell R C r c = (r + R / 2, c + C / 2) := by
      unfold swapCell
      split_ifs <;> refine Prod.ext ?_ ?_ <;> simp only [] <;> omega
    have e2 : swapCell R C (r + R / 2) (c + C / 2) = (r, c) := by
      unfold swapCell
      split_ifs <;> refine Prod.ext ?_ ?_ <;> simp only [] <;> omega
    have e3 : swapCell R C r (c + C / 2) = (r + R / 2, c) := by
      unfold swapCell
      split_ifs <;> refine Prod.ext ?_ ?_ <;> simp only [] <;> omega
    have e4 : swapCell R C (r + R / 2) c = (r, c + C / 2) := by
      unfold swapCell
      split_ifs <;> refine Prod.ext ?_ ?_ <;> simp only [] <;> omega
    have hr1 : r < R := by omega
    have hr2 : r + R / 2 < R := by omega
    have hc1 : c < C := by omega
    have hc2 : c + C / 2 < C := by omega
    refine ⟨⟨?_, ?_, ?_, ?_⟩, ?_, ?_, ?_, ?_⟩
    · rw [swap_quads_get? g r c hr1 hc1, e1]
    · rw [swap_quads_get? g _ _ hr2 hc2, e2]
    · rw [swap_quads_get? g _ _ hr1 hc2, e3]
    · rw [swap_quads_get? g _ _ hr2 hc1, e4]
    · rw [Grid.get?_eq_some g _ _ hr1 hc1]; rfl
    · rw [Grid.get?_eq_some g _ _ hr2 hc2]; rfl
    · rw [Grid.get?_eq_some g _ _ hr1 hc2]; rfl
    · rw [Grid.get?_eq_some g _ _ hr2 hc1]; rfl
  · intro α R C g hr hc
    have e : swapCell R C (R / 2) (C / 2) = (0, 0) := by
      unfold swapCell
      split_ifs <;> refine Prod.ext ?_ ?_ <;> simp only [] <;> omega
    constructor
    · rw [swap_quads_get? g _ _ (by omega) (by omega), e]
    · rw [Grid.get?_eq_some g 0 0 (by omega) (by omega)]; rfl

/-- The centre of the concrete 3 × 5 grid after the swap holds its former corner cell. -/
theorem C2_swap_quads_exchanges_quadrants_witness :
    (swap_quads sampleGrid).get? (3 / 2) (5 / 2) = sampleGrid.get? 0 0 ∧
      (sampleGrid.get? 0 0).isSome :=
  C2_swap_quads_exchanges_quadrants.2 Nat 3 5 sampleGrid (by decide) (by decide)

/-- C3. Mask application in `frame_analysis` (`magnitude_spectrum.copyTo(
masked_magnitude_spectrum, mask)` into a fresh destination) is the elementwise product with a
binary mask: each cell of the result equals the log-magnitude cell where the mask cell is 1
and equals 0 where the mask cell is 0, which is the product of the two cells for a mask cell
of 0 or 1; hence an all-passed mask leaves the grid unchanged and an all-suppressed mask
zeroes it entirely.  The masked magnitude of `frame_analysis` is this copy of the extracted
log-magnitude under the mask as it stands after its first quadrant swap. -/
theorem C3_mask_application :
    (∀ (R C : Nat) (mag : Grid R C ℝ) (mask : Grid R C Nat),
      (∀ r c, (mask r c = 1 → mag.copyToMasked mask r c = mag r c) ∧
        (mask r c = 0 → mag.copyToMasked mask r c = 0) ∧
        (mask r c ≤ 1 → mag.copyToMasked mask r c = mag r c * (mask r c : ℝ))) ∧
      ((∀ r c, mask r c = 1) → mag.copyToMasked mask = mag) ∧
      ((∀ r c, mask r c = 0) → mag.copyToMasked mask = Grid.zeros)) ∧
    (∀ (R C : Nat) (d : Display) (grey : Grid R C ℝ) (mask : Grid R C Nat)
      (out : FrameResult R C), frame_analysis d grey mask = some out →
        out.masked_magnitude_spectrum
          = (information_extraction (forwardSpectrum grey)).1.copyToMasked
              (swap_quads mask)) := by
  constructor
  · intro R C mag mask
    refine ⟨?_, ?_, ?_⟩
    · intro r c
      simp only [Grid.copyToMasked]
      refine ⟨?_, ?_, ?_⟩
      · intro hm
        simp [hm]
      · intro hm
        simp [hm]
      · intro hm
        generalize mask r c = b at hm
        interval_cases b <;> simp
    · intro hall
      funext r c
      simp [Grid.copyToMasked, hall]
    · intro hall
      funext r c
      simp [Grid.copyToMasked, Grid.zeros, hall]
  · intro R C d grey mask out h
    exact (frame_analysis_inv d grey mask out h).2.2.1

/-- An all-passed mask on a concrete grid leaves it as it is. -/
theorem C3_mask_application_witness :
    (Grid.ofFn 2 3 fun r c => ((r + c : Nat) : ℝ)).copyToMasked Grid.ones
      = Grid.ofFn 2 3 fun r c => ((r + c : Nat) : ℝ) :=
  (C3_mask_application.1 2 3 (Grid.ofFn 2 3 fun r c => ((r + c : Nat) : ℝ)) Grid.ones).2.1
    (fun _ _ => rfl)

/-- C10. Painted strokes align with the centred view: for every log-magnitude grid and every
mask of its size (even or odd), the centred form of what `frame_analysis` computes,
`swap_quads(apply(mag, swap_quads(mask)))`, equals `apply(swap_quads(mag), mask)`; cell by
cell it is 0 where the stored mask cell at the same position is 0 and the centred magnitude
elsewhere.  The Magnitude window of `frame_analysis` is this grid, normalised and
colour-mapped cell by cell. -/
theorem C10_strokes_align_with_centred_view :
    (∀ (R C : Nat) (mag : Grid R C ℝ) (mask : Grid R C Nat),
      swap_quads (mag.copyToMasked (swap_quads mask)) = (swap_quads mag).copyToMasked mask ∧
      ∀ r c, swap_quads (mag.copyToMasked (swap_quads mask)) r c
          = if mask r c = 0 then 0 else swap_quads mag r c) ∧
    (∀ (R C : Nat) (d : Display) (grey : Grid R C ℝ) (mask : Grid R C Nat)
      (out : FrameResult R C), frame_analysis d grey mask = some out →
        out.magnitudeWindow
          = (((swap_quads (information_extraction (forwardSpectrum grey)).1).copyToMasked
                mask).map (d.normalize out.masked_magnitude_spectrum)).map d.colourMap) := by
  constructor
  · intro R C mag mask
    refine ⟨swap_quads_copyToMasked_swap mag mask, ?_⟩
    intro r c
    rw [swap_quads_copyToMasked_swap mag mask]
    simp only [Grid.copyToMasked]
    by_cases h : mask r c = 0
    · simp [h]
    · simp [h]
  · intro R C d grey mask out h
    obtain ⟨_, _, hm, hw⟩ := frame_analysis_inv d grey mask out h
    rw [hw]
    have hv : ∀ m : Grid R C ℝ, visualise d m visual_type.GET_MAG
        = swap_quads ((m.map (d.normalize m)).map d.colourMap) := by
      intro m
      simp [visualise]
    rw [hv, swap_quads_map, swap_quads_map]
    rw [hm, swap_quads_copyToMasked_swap]

/-! ### The paint stroke and the reset gesture -/

theorem circlePasses_radius20 : circlePasses 21 0 20 0 1 39 = passes20 := by
  decide

theorem ite_hline_apply {α : Type} {R C : Nat} (P : Prop) [Decidable P] (img : Grid R C α)
    (y xl xr : Int) (color : α) (r : Fin R) (c : Fin C) :
    (if P then hline img y xl xr color else img) r c
      = if P ∧ (r.val : Int) = y ∧ xl ≤ (c.val : Int) ∧ (c.val : Int) ≤ xr then color
        else img r c := by
  by_cases h : P <;> simp [h, hline]

theorem hline_apply {α : Type} {R C : Nat} (img : Grid R C α) (y xl xr : Int) (color : α)
    (r : Fin R) (c : Fin C) :
    hline img y xl xr color r c
      = if (r.val : Int) = y ∧ xl ≤ (c.val : Int) ∧ (c.val : Int) ≤ xr then color
        else img r c := rfl

/-- One pass of the circle routine recolours exactly the cells its four runs cover, whether
the circle lies inside the image (unclipped runs) or not (clipped runs). -/
theorem circlePass_apply {α : Type} {R C : Nat} (color : α) (cx cy : Int) (inside : Bool)
    (img : Grid R C α) (p : Int × Int) (h0 : 0 ≤ p.2) (h1 : p.2 ≤ p.1) (r : Fin R) (c : Fin C) :
    circlePass color cx cy inside img p r c
      = if inPass cx cy p r.val c.val then color else img r c := by
  have hr := r.isLt
  have hc := c.isLt
  obtain ⟨dx, dy⟩ := p
  simp only at h0 h1
  cases inside
  · simp only [circlePass, inPass, Bool.false_eq_true, if_false]
    by_cases hO : cx - dx < (C : Int) ∧ cx + dx ≥ 0 ∧ cy - dx < (R : Int) ∧ cy + dx ≥ 0
    · rw [if_pos hO]
      by_cases hI : cx - dy < (C : Int) ∧ cx + dy ≥ 0
      · rw [if_pos hI]
        simp only [ite_hline_apply]
        split_ifs <;> first | rfl | (exfalso; omega)
      · rw [if_neg hI]
        simp only [ite_hline_apply]
        split_ifs <;> first | rfl | (exfalso; omega)
    · rw [if_neg hO]
      split_ifs <;> first | rfl | (exfalso; omega)
  · simp only [circlePass, inPass, if_true, hline_apply]
    split_ifs <;> first | rfl | (exfalso; omega)

/-- Folding the passes over an image recolours exactly the cells some pass covers. -/
theorem foldl_circlePass_apply {α : Type} {R C : Nat} (color : α) (cx cy : Int) (inside : Bool)
    (l : List (Int × Int)) (hl : ∀ p ∈ l, 0 ≤ p.2 ∧ p.2 ≤ p.1) (img : Grid R C α)
    (r : Fin R) (c : Fin C) :
    l.foldl (circlePass color cx cy inside) img r c
      = if ∃ p ∈ l, inPass cx cy p r.val c.val then color else img r c := by
  induction l generalizing img with
  | nil => simp
  | cons p l ih =>
    rw [List.foldl_cons, ih (fun q hq => hl q (List.mem_cons_of_mem p hq)),
      circlePass_apply color cx cy inside img p (hl p (List.mem_cons_self p l)).1
        (hl p (List.mem_cons_self p l)).2]
    by_cases h1 : ∃ q ∈ l, inPass cx cy q r.val c.val
    · have h2 : ∃ q ∈ p :: l, inPass cx cy q r.val c.val := by
        obtain ⟨q, hq, hq2⟩ := h1
        exact ⟨q, List.mem_cons_of_mem p hq, hq2⟩
      rw [if_pos h1, if_pos h2]
    · rw [if_neg h1]
      by_cases h3 : inPass cx cy p r.val c.val
      · rw [if_pos h3, if_pos ⟨p, List.mem_cons_self p l, h3⟩]
      · have h2 : ¬∃ q ∈ p :: l, inPass cx cy q r.val c.val := by
          rintro ⟨q, hq, hq2⟩
          rcases List.mem_cons.1 hq with rfl | hq
          · exact h3 hq2
          · exact h1 ⟨q, hq, hq2⟩
        rw [if_neg h3, if_neg h2]

theorem passes20_ordered : ∀ p ∈ passes20, 0 ≤ p.2 ∧ p.2 ≤ p.1 := by
  decide

set_option maxRecDepth 100000 in
/-- The passes for radius 20 cover the offsets of the Euclidean disk of radius 20 and no
others, checked offset by offset over the square of side 41 around the centre. -/
theorem passes20_square : ∀ i : Fin 41, ∀ j : Fin 41,
    decide (∃ p ∈ passes20, inPass 0 0 p ((j.val : Int) - 20) ((i.val : Int) - 20))
      = decide (((i.val : Int) - 20) * ((i.val : Int) - 20)
          + ((j.val : Int) - 20) * ((j.val : Int) - 20) ≤ 400) := by
  decide

theorem passes20_bounded (a b : Int) (h : ∃ p ∈ passes20, inPass 0 0 p b a) :
    (-20 ≤ a ∧ a ≤ 20) ∧ (-20 ≤ b ∧ b ≤ 20) := by
  obtain ⟨p, hp, hin⟩ := h
  simp only [passes20, List.mem_cons, List.mem_singleton, List.not_mem_nil, or_false] at hp
  unfold inPass at hin
  rcases hp with rfl | rfl | rfl | rfl | rfl | rfl | rfl | rfl | rfl | rfl | rfl | rfl | rfl |
    rfl | rfl <;> (simp only [] at hin; omega)

/-- Some pass of the radius-20 circle centred at (x, y) covers the cell (r, c) exactly when the
cell lies within Euclidean distance 20 of the centre. -/
theorem passes20_cover_iff (x y r c : Int) :
    (∃ p ∈ passes20, inPass x y p r c) ↔ (c - x) * (c - x) + (r - y) * (r - y) ≤ 400 := by
  have shift : ∀ p : Int × Int, inPass x y p r c ↔ inPass 0 0 p (r - y) (c - x) := by
    intro p
    unfold inPass
    constructor <;> intro h <;> omega
  have e : (∃ p ∈ passes20, inPass x y p r c) ↔ ∃ p ∈ passes20, inPass 0 0 p (r - y) (c - x) := by
    constructor
    · rintro ⟨p, hp, h⟩
      exact ⟨p, hp, (shift p).1 h⟩
    · rintro ⟨p, hp, h⟩
      exact ⟨p, hp, (shift p).2 h⟩
  rw [e]
  generalize c - x = a
  generalize r - y = b
  by_cases hb : (-20 ≤ a ∧ a ≤ 20) ∧ (-20 ≤ b ∧ b ≤ 20)
  · have hi : (a + 20).toNat < 41 := by omega
    have hj : (b + 20).toNat < 41 := by omega
    have key := passes20_square ⟨(a + 20).toNat, hi⟩ ⟨(b + 20).toNat, hj⟩
    have ea : (((a + 20).toNat : Nat) : Int) - 20 = a := by omega
    have eb : (((b + 20).toNat : Nat) : Int) - 20 = b := by omega
    simp only [ea, eb] at key
    exact decide_eq_decide.1 key
  · constructor
    · intro h
      exact absurd (passes20_bounded a b h) hb
    · intro h
      exfalso
      apply hb
      refine ⟨⟨?_, ?_⟩, ?_, ?_⟩ <;> nlinarith [mul_self_nonneg a, mul_self_nonneg b]

/-- The filled circle of radius 20 recolours exactly the cells of the grid within Euclidean
distance 20 of the centre. -/
theorem circle20_apply {α : Type} {R C : Nat} (img : Grid R C α) (x y : Int) (color : α)
    (r : Fin R) (c : Fin C) :
    circle img x y 20 color r c
      = if ((c.val : Int) - x) * ((c.val : Int) - x)
            + ((r.val : Int) - y) * ((r.val : Int) - y) ≤ 400 then color
        else img r c := by
  have e : circlePasses (20 + 1) 0 ((20 : Nat) : Int) 0 1 (2 * ((20 : Nat) : Int) - 1)
      = passes20 := circlePasses_radius20
  unfold circle
  rw [e, foldl_circlePass_apply color x y _ passes20 passes20_ordered img r c]
  by_cases h : ((c.val : Int) - x) * ((c.val : Int) - x)
      + ((r.val : Int) - y) * ((r.val : Int) - y) ≤ 400
  · rw [if_pos h, if_pos ((passes20_cover_iff x y r.val c.val).2 h)]
  · rw [if_neg h, if_neg (fun hp => h ((passes20_cover_iff x y r.val c.val).1 hp))]

/-- What `MouseControl` makes of a pointer-move event: the flag stays, and the mask gets the
circle exactly when the flag is set. -/
theorem MouseControl_move (image : Mat Nat) (x y flags : Int) (drawing : Bool) :
    MouseControl EVENT_MOUSEMOVE x y flags drawing image
      = (drawing,
          if drawing then { image with data := circle image.data x y 20 0 } else image) := by
  have h1 : ¬(EVENT_MOUSEMOVE = EVENT_LBUTTONDOWN) := by decide
  have h2 : ¬(EVENT_MOUSEMOVE = EVENT_LBUTTONUP) := by decide
  have h3 : ¬(EVENT_MOUSEMOVE = EVENT_RBUTTONDBLCLK) := by decide
  unfold MouseControl
  simp only [if_neg h1, if_neg h2, if_neg h3]

/-- What `MouseControl` makes of the double-click of the right button: an all-ones mask of
the size of the old one (a set flag first stamps the circle, which the reset overwrites). -/
theorem MouseControl_reset (image : Mat Nat) (x y flags : Int) (drawing : Bool) :
    MouseControl EVENT_RBUTTONDBLCLK x y flags drawing image
      = (drawing, Mat.ones image.rows image.cols) := by
  have h1 : ¬(EVENT_RBUTTONDBLCLK = EVENT_LBUTTONDOWN) := by decide
  have h2 : ¬(EVENT_RBUTTONDBLCLK = EVENT_LBUTTONUP) := by decide
  unfold MouseControl
  simp only [if_neg h1, if_neg h2, if_true]
  cases drawing <;> rfl

/-- C4. A pointer-move event handled by `MouseControl` stamps the fixed-radius disk only in
Drawing mode: when the drawing flag is set the resulting mask has the size of the old one,
exactly the cells of the grid within radius 20 of (x, y) are 0 and every other cell is
unchanged; when the flag is clear the mask is left entirely unchanged.  The flag itself is
not changed by a move. -/
theorem C4_pointer_move_stamps_disk :
    ∀ (image : Mat Nat) (x y flags : Int),
      ((MouseControl EVENT_MOUSEMOVE x y flags true image).2.rows = image.rows ∧
        (MouseControl EVENT_MOUSEMOVE x y flags true image).2.cols = image.cols ∧
        ∀ r c : Nat, r < image.rows → c < image.cols →
          (MouseControl EVENT_MOUSEMOVE x y flags true image).2.get? r c
            = if ((c : Int) - x) ^ 2 + ((r : Int) - y) ^ 2 ≤ 20 ^ 2 then some 0
              else image.get? r c) ∧
      (MouseControl EVENT_MOUSEMOVE x y flags false image).2 = image ∧
      (∀ drawing : Bool, (MouseControl EVENT_MOUSEMOVE x y flags drawing image).1 = drawing) := by
  intro image x y flags
  refine ⟨?_, ?_, ?_⟩
  · rw [MouseControl_move]
    refine ⟨rfl, rfl, ?_⟩
    intro r c hr hc
    show (circle image.data x y 20 0).get? r c
      = if ((c : Int) - x) ^ 2 + ((r : Int) - y) ^ 2 ≤ 20 ^ 2 then some 0
        else image.data.get? r c
    rw [Grid.get?_eq_some (circle image.data x y 20 0) r c hr hc,
      Grid.get?_eq_some image.data r c hr hc, circle20_apply]
    have e : ((c : Int) - x) ^ 2 + ((r : Int) - y) ^ 2 ≤ 20 ^ 2
        ↔ ((c : Int) - x) * ((c : Int) - x) + ((r : Int) - y) * ((r : Int) - y) ≤ 400 := by
      rw [pow_two, pow_two]
      norm_num
    by_cases h : ((c : Int) - x) * ((c : Int) - x) + ((r : Int) - y) * ((r : Int) - y) ≤ 400
    · rw [if_pos h, if_pos (e.2 h)]
    · rw [if_neg h, if_neg (fun h2 => h (e.1 h2))]
  · rw [MouseControl_move]
    rfl
  · intro drawing
    rw [MouseControl_move]

/-- C5. After `MouseControl` handles the double-click of the right button
(`EVENT_RBUTTONDBLCLK`), whatever the mask held, wherever the pointer is and whatever the
drawing flag, the mask has the same dimensions as before and every cell equals 1. -/
theorem C5_reset_gesture :
    ∀ (image : Mat Nat) (x y flags : Int) (drawing : Bool),
      (MouseControl EVENT_RBUTTONDBLCLK x y flags drawing image).2
          = Mat.ones image.rows image.cols ∧
        (MouseControl EVENT_RBUTTONDBLCLK x y flags drawing image).2.rows = image.rows ∧
        (MouseControl EVENT_RBUTTONDBLCLK x y flags drawing image).2.cols = image.cols ∧
        ∀ r c, (MouseControl EVENT_RBUTTONDBLCLK x y flags drawing image).2.data r c = 1 := by
  intro image x y flags drawing
  rw [MouseControl_reset]
  exact ⟨rfl, rfl, rfl, fun _ _ => rfl⟩

/-- A stroke at (1, 1) on a 3 × 30 all-passed mask suppresses the columns within distance 20
in each row; the reset gesture afterwards gives back an all-passed mask of the same size. -/
theorem C4_C5_example :
    (MouseControl EVENT_MOUSEMOVE 1 1 0 true (Mat.ones 3 30)).2.data.toLists
        = [List.replicate 21 0 ++ List.replicate 9 1, List.replicate 22 0 ++ List.replicate 8 1,
            List.replicate 21 0 ++ List.replicate 9 1] ∧
      (MouseControl EVENT_RBUTTONDBLCLK 1 1 0 true
          (MouseControl EVENT_MOUSEMOVE 1 1 0 true (Mat.ones 3 30)).2).2.data.toLists
        = List.replicate 3 (List.replicate 30 1) := by
  decide

/-! ### Spectrum decomposition: the polar round trip -/

theorem polarMagnitude_eq_abs (z : ℂ) : polarMagnitude z.re z.im = Complex.abs z := by
  unfold polarMagnitude
  rw [Complex.abs_apply, Complex.normSq_apply, pow_two, pow_two]

theorem cos_polarAngle (z : ℂ) : Real.cos (polarAngle z.re z.im) = Real.cos (Complex.arg z) := by
  unfold polarAngle
  rw [Complex.eta]
  split_ifs
  · exact Real.cos_add_two_pi _
  · rfl

theorem sin_polarAngle (z : ℂ) : Real.sin (polarAngle z.re z.im) = Real.sin (Complex.arg z) := by
  unfold polarAngle
  rw [Complex.eta]
  split_ifs
  · exact Real.sin_add_two_pi _
  · rfl

/-- The angle of `cv::cartToPolar` lies in `[0, 2π)`. -/
theorem polarAngle_range (x y : ℝ) : 0 ≤ polarAngle x y ∧ polarAngle x y < 2 * Real.pi := by
  unfold polarAngle
  have h1 := Complex.neg_pi_lt_arg ⟨x, y⟩
  have h2 := Complex.arg_le_pi ⟨x, y⟩
  have h3 := Real.pi_pos
  split_ifs with h
  · constructor <;> linarith
  · constructor <;> linarith

/-- Undoing the logarithmic scale: `exp(log(1 + m)) - 1 = m` for a magnitude `m`. -/
theorem exp_log_one_add_sub_one (z : ℂ) :
    Real.exp (Real.log (polarMagnitude z.re z.im + 1)) - 1 = Complex.abs z := by
  rw [polarMagnitude_eq_abs]
  have h : 0 < Complex.abs z + 1 := by
    have := Complex.abs.nonneg z
    linarith
  rw [Real.exp_log h]
  ring

/-- C7. Polar round trip: for every complex spectrum `x`, `information_injection` applied to
the (log-magnitude, phase) pair that `information_extraction` produces from `x`, with no mask
in between, reconstructs `x` cell for cell: with `m = sqrt(re² + im²)`, `l = log(1 + m)` and
the phase `p`, `(exp(l) - 1)·cos p = re` and `(exp(l) - 1)·sin p = im`, in exact real
arithmetic. -/
theorem C7_polar_round_trip :
    ∀ (R C : Nat) (x : Grid R C ℂ),
      information_injection (information_extraction x).1 (information_extraction x).2 = x ∧
      ∀ r c,
        (Real.exp ((information_extraction x).1 r c) - 1)
            * Real.cos ((information_extraction x).2 r c) = (x r c).re ∧
        (Real.exp ((information_extraction x).1 r c) - 1)
            * Real.sin ((information_extraction x).2 r c) = (x r c).im ∧
        (information_extraction x).1 r c
            = Real.log (1 + Real.sqrt ((x r c).re ^ 2 + (x r c).im ^ 2)) := by
  intro R C x
  have cell : ∀ r c,
      (Real.exp ((information_extraction x).1 r c) - 1)
          * Real.cos ((information_extraction x).2 r c) = (x r c).re ∧
      (Real.exp ((information_extraction x).1 r c) - 1)
          * Real.sin ((information_extraction x).2 r c) = (x r c).im := by
    intro r c
    simp only [information_extraction, Grid.map, Grid.zipWith]
    rw [exp_log_one_add_sub_one, cos_polarAngle, sin_polarAngle]
    exact ⟨Complex.abs_mul_cos_arg _, Complex.abs_mul_sin_arg _⟩
  refine ⟨?_, fun r c => ⟨(cell r c).1, (cell r c).2, ?_⟩⟩
  · funext r c
    apply Complex.ext
    · exact (cell r c).1
    · exact (cell r c).2
  · simp only [information_extraction, Grid.map, Grid.zipWith, polarMagnitude]
    rw [add_comm]

/-! ### The transform pair of `frame_analysis` -/

theorem twiddle_eq_pow (n k : Nat) : twiddle false n k = twiddle false n 1 ^ k := by
  unfold twiddle
  rw [← Complex.exp_nat_mul]
  congr 1
  simp only [Bool.false_eq_true, if_false, Nat.cast_one]
  ring

/-- The forward factor `exp(-2πi/n)` is a primitive `n`-th root of unity. -/
theorem twiddle_isPrimitiveRoot (n : Nat) (hn : n ≠ 0) : IsPrimitiveRoot (twiddle false n 1) n := by
  have h := (Complex.isPrimitiveRoot_exp n hn).inv
  have e : twiddle false n 1 = (Complex.exp (2 * Real.pi * Complex.I / n))⁻¹ := by
    unfold twiddle
    rw [← Complex.exp_neg]
    congr 1
    simp only [Bool.false_eq_true, if_false, Nat.cast_one]
    ring
  rw [e]
  exact h

/-- Orthogonality of the factors: the sum over `r` of `ζ^(k·r)` is `n` when `n` divides `k` and
0 otherwise. -/
theorem twiddle_sum (n k : Nat) (hn : n ≠ 0) :
    ∑ r : Fin n, (twiddle false n 1 ^ k) ^ r.val = if n ∣ k then (n : ℂ) else 0 := by
  have hζ := twiddle_isPrimitiveRoot n hn
  split_ifs with h
  · have e : twiddle false n 1 ^ k = 1 := (hζ.pow_eq_one_iff_dvd k).2 h
    simp [e]
  · have hw : twiddle false n 1 ^ k ≠ 1 := fun e => h ((hζ.pow_eq_one_iff_dvd k).1 e)
    have hwn : (twiddle false n 1 ^ k) ^ n = 1 := by
      rw [← pow_mul, mul_comm, pow_mul, hζ.pow_eq_one, one_pow]
    rw [Fin.sum_univ_eq_sum_range (fun i => (twiddle false n 1 ^ k) ^ i) n, geom_sum_eq hw n, hwn]
    simp

/-- The index `(-u) mod n`. -/
theorem neg_index_lt {n : Nat} (u : Fin n) : (n - u.val) % n < n :=
  Nat.mod_lt _ (Nat.lt_of_le_of_lt (Nat.zero_le _) u.isLt)

/-- Two unscaled forward sums in a row give the grid with both indices negated (mod the
size), multiplied by the number of cells. -/
theorem dftSum_dftSum {R C : Nat} (x : Grid R C ℂ) (u : Fin R) (v : Fin C) :
    dftSum false (dftSum false x) u v
      = (R : ℂ) * (C : ℂ) * x ⟨(R - u.val) % R, neg_index_lt u⟩ ⟨(C - v.val) % C, neg_index_lt v⟩ := by
  have hR : R ≠ 0 := fun h => by have := u.isLt; omega
  have hC : C ≠ 0 := fun h => by have := v.isLt; omega
  have step1 : dftSum false (dftSum false x) u v
      = ∑ r' : Fin R, ∑ c' : Fin C, x r' c'
          * (∑ r : Fin R, (twiddle false R 1 ^ (r'.val + u.val)) ^ r.val)
          * (∑ c : Fin C, (twiddle false C 1 ^ (c'.val + v.val)) ^ c.val) := by
    have inner : ∀ (r' : Fin R) (c' : Fin C),
        x r' c' * (∑ r : Fin R, (twiddle false R 1 ^ (r'.val + u.val)) ^ r.val)
          * (∑ c : Fin C, (twiddle false C 1 ^ (c'.val + v.val)) ^ c.val)
        = ∑ r : Fin R, ∑ c : Fin C, x r' c' * twiddle false R (r.val * r'.val)
            * twiddle false C (c.val * c'.val) * twiddle false R (u.val * r.val)
            * twiddle false C (v.val * c.val) := by
      intro r' c'
      rw [mul_assoc, Finset.sum_mul_sum, Finset.mul_sum]
      refine Finset.sum_congr rfl (fun r _ => ?_)
      rw [Finset.mul_sum]
      refine Finset.sum_congr rfl (fun c _ => ?_)
      rw [twiddle_eq_pow R (r.val * r'.val), twiddle_eq_pow C (c.val * c'.val),
        twiddle_eq_pow R (u.val * r.val), twiddle_eq_pow C (v.val * c.val)]
      ring
    simp only [inner]
    simp only [dftSum, Finset.sum_mul]
    calc ∑ r : Fin R, ∑ c : Fin C, ∑ r' : Fin R, ∑ c' : Fin C,
          x r' c' * twiddle false R (r.val * r'.val) * twiddle false C (c.val * c'.val)
            * twiddle false R (u.val * r.val) * twiddle false C (v.val * c.val)
        = ∑ r : Fin R, ∑ r' : Fin R, ∑ c : Fin C, ∑ c' : Fin C,
          x r' c' * twiddle false R (r.val * r'.val) * twiddle false C (c.val * c'.val)
            * twiddle false R (u.val * r.val) * twiddle false C (v.val * c.val) :=
          Finset.sum_congr rfl (fun r _ => Finset.sum_comm)
      _ = ∑ r' : Fin R, ∑ r : Fin R, ∑ c : Fin C, ∑ c' : Fin C,
          x r' c' * twiddle false R (r.val * r'.val) * twiddle false C (c.val * c'.val)
            * twiddle false R (u.val * r.val) * twiddle false C (v.val * c.val) :=
          Finset.sum_comm
      _ = ∑ r' : Fin R, ∑ r : Fin R, ∑ c' : Fin C, ∑ c : Fin C,
          x r' c' * twiddle false R (r.val * r'.val) * twiddle false C (c.val * c'.val)
            * twiddle false R (u.val * r.val) * twiddle false C (v.val * c.val) :=
          Finset.sum_congr rfl (fun r' _ => Finset.sum_congr rfl (fun r _ => Finset.sum_comm))
      _ = ∑ r' : Fin R, ∑ c' : Fin C, ∑ r : Fin R, ∑ c : Fin C,
          x r' c' * twiddle false R (r.val * r'.val) * twiddle false C (c.val * c'.val)
            * twiddle false R (u.val * r.val) * twiddle false C (v.val * c.val) :=
          Finset.sum_congr rfl (fun r' _ => Finset.sum_comm)
  rw [step1]
  simp only [twiddle_sum R _ hR, twiddle_sum C _ hC]
  have hr : ∀ r' : Fin R, R ∣ r'.val + u.val ↔ r' = ⟨(R - u.val) % R, neg_index_lt u⟩ := by
    intro r'
    have h1 := r'.isLt
    have h2 := u.isLt
    constructor
    · rintro ⟨k, hk⟩
      apply Fin.ext
      simp only []
      have hk2 : k = 0 ∨ k = 1 := by
        rcases Nat.lt_or_ge k 2 with h | h
        · omega
        · have : R * 2 ≤ R * k := Nat.mul_le_mul_left R h
          omega
      rcases hk2 with rfl | rfl
      · have h0 : u.val = 0 := by omega
        have h0' : r'.val = 0 := by omega
        rw [h0, h0', Nat.sub_zero, Nat.mod_self]
      · have : R - u.val = r'.val := by omega
        rw [this, Nat.mod_eq_of_lt h1]
    · intro h
      rw [h]
      simp only []
      rcases Nat.eq_zero_or_pos u.val with h0 | h0
      · rw [h0, Nat.sub_zero, Nat.mod_self]
        exact dvd_zero R
      · rw [Nat.mod_eq_of_lt (by omega)]
        exact ⟨1, by omega⟩
  have hc : ∀ c' : Fin C, C ∣ c'.val + v.val ↔ c' = ⟨(C - v.val) % C, neg_index_lt v⟩ := by
    intro c'
    have h1 := c'.isLt
    have h2 := v.isLt
    constructor
    · rintro ⟨k, hk⟩
      apply Fin.ext
      simp only []
      have hk2 : k = 0 ∨ k = 1 := by
        rcases Nat.lt_or_ge k 2 with h | h
        · omega
        · have : C * 2 ≤ C * k := Nat.mul_le_mul_left C h
          omega
      rcases hk2 with rfl | rfl
      · have h0 : v.val = 0 := by omega
        have h0' : c'.val = 0 := by omega
        rw [h0, h0', Nat.sub_zero, Nat.mod_self]
      · have : C - v.val = c'.val := by omega
        rw [this, Nat.mod_eq_of_lt h1]
    · intro h
      rw [h]
      simp only []
      rcases Nat.eq_zero_or_pos v.val with h0 | h0
      · rw [h0, Nat.sub_zero, Nat.mod_self]
        exact dvd_zero C
      · rw [Nat.mod_eq_of_lt (by omega)]
        exact ⟨1, by omega⟩
  simp only [hr, hc]
  rw [Finset.sum_eq_single ⟨(R - u.val) % R, neg_index_lt u⟩]
  · rw [Finset.sum_eq_single ⟨(C - v.val) % C, neg_index_lt v⟩]
    · simp only [if_true]
      ring
    · intro c' _ hne
      simp [hne]
    · intro h
      exact absurd (Finset.mem_univ _) h
  · intro r' _ hne
    simp [hne]
  · intro h
    exact absurd (Finset.mem_univ _) h

/-- The two transform calls of `frame_analysis` in a row, on a non-empty grey plane: both
succeed, and the real plane of the result holds the grey plane with both indices negated
(mod the size), multiplied by the number of cells. -/
theorem FFT_pair_plane0 {R C : Nat} (x : Grid R C ℝ) (hne : ¬(R = 0 ∨ C = 0)) :
    ∃ s out, FFT (Image.real x) DFT_COMPLEX_OUTPUT = some (Image.complex s) ∧
      FFT (Image.complex s) DFT_REAL_OUTPUT = some out ∧
      ∀ (r : Fin R) (c : Fin C), out.plane0 r c
        = (R : ℝ) * (C : ℝ) * x ⟨(R - r.val) % R, neg_index_lt r⟩ ⟨(C - c.val) % C, neg_index_lt c⟩ := by
  refine ⟨forwardSpectrum x, Image.complex (dftSum false (forwardSpectrum x)),
    FFT_complex_output x hne, FFT_real_output _ hne, ?_⟩
  intro r c
  simp only [Image.plane0, Grid.map, forwardSpectrum]
  rw [dftSum_dftSum]
  simp [merge, Grid.zipWith, Grid.zeros]

/-- C6, at the failing input.  For the one-row grey frame (1, 2, 3) both transform calls of
`frame_analysis` succeed, and the real plane of `FFT(FFT(x, DFT_COMPLEX_OUTPUT),
DFT_REAL_OUTPUT)` is (3, 9, 6): three times the frame read backwards from its first cell,
which is no constant multiple of (1, 2, 3).  The second call lacks `cv::DFT_INVERSE`, so it is
a second forward transform. -/
theorem C6_FFT_pair_on_ramp :
    ∃ s out, FFT (Image.real rampRow) DFT_COMPLEX_OUTPUT = some (Image.complex s) ∧
      FFT (Image.complex s) DFT_REAL_OUTPUT = some out ∧
      (out.plane0 0 0 = 3 ∧ out.plane0 0 1 = 9 ∧ out.plane0 0 2 = 6) ∧
      ¬∃ k : ℝ, ∀ r c, out.plane0 r c = k * rampRow r c := by
  obtain ⟨s, out, h1, h2, h3⟩ := FFT_pair_plane0 rampRow (by decide)
  have e0 : out.plane0 0 0 = 3 := by
    rw [h3]
    simp [rampRow]
  have e1 : out.plane0 0 1 = 9 := by
    rw [h3]
    simp [rampRow]
    norm_num
  have e2 : out.plane0 0 2 = 6 := by
    rw [h3]
    simp [rampRow]
    norm_num
  refine ⟨s, out, h1, h2, ⟨e0, e1, e2⟩, ?_⟩
  rintro ⟨k, hk⟩
  have k0 := hk 0 0
  have k1 := hk 0 1
  rw [e0] at k0
  rw [e1] at k1
  simp [rampRow] at k0 k1
  linarith

/-! ### Single-precision rounding and the resize policy -/

theorem roundF32_zero : roundF32 0 = 0 := by
  unfold roundF32
  rw [if_pos rfl]

/-- The significand `roundF32` picks for the scaled value `t`: the floor, or the floor plus
one from the half on (ties to even). -/
theorem roundF32_pos_eq (x : ℚ) (hx : 0 < x) :
    ∃ m : ℤ, roundF32 x = m * (2 : ℚ) ^ (Int.log 2 x - 23) ∧
      ⌊x / (2 : ℚ) ^ (Int.log 2 x - 23)⌋ ≤ m ∧
      (∀ Y : ℤ, x / (2 : ℚ) ^ (Int.log 2 x - 23) ≤ Y → m ≤ Y) := by
  unfold roundF32
  rw [if_neg hx.ne']
  simp only [abs_of_pos hx, if_pos hx]
  refine ⟨_, rfl, ?_, ?_⟩
  · split_ifs <;> omega
  · intro Y hY
    have hf := Int.floor_le (x / (2 : ℚ) ^ (Int.log 2 x - 23))
    have hfY : ⌊x / (2 : ℚ) ^ (Int.log 2 x - 23)⌋ ≤ Y := by
      have : ((⌊x / (2 : ℚ) ^ (Int.log 2 x - 23)⌋ : ℤ) : ℚ) ≤ (Y : ℚ) := le_trans hf hY
      exact_mod_cast this
    have hlt : ∀ h : (0 : ℚ) < x / (2 : ℚ) ^ (Int.log 2 x - 23)
        - ⌊x / (2 : ℚ) ^ (Int.log 2 x - 23)⌋,
        ⌊x / (2 : ℚ) ^ (Int.log 2 x - 23)⌋ + 1 ≤ Y := by
      intro h
      have : ((⌊x / (2 : ℚ) ^ (Int.log 2 x - 23)⌋ : ℤ) : ℚ) < (Y : ℚ) := by linarith
      have h2 : ⌊x / (2 : ℚ) ^ (Int.log 2 x - 23)⌋ < Y := by exact_mod_cast this
      omega
    split_ifs with h1 h2 h3
    · exact hfY
    · exact hlt (by linarith)
    · exact hfY
    · exact hlt (by linarith)

theorem roundF32_nonneg (x : ℚ) (hx : 0 ≤ x) : 0 ≤ roundF32 x := by
  rcases hx.eq_or_lt with h | h
  · rw [← h, roundF32_zero]
  · obtain ⟨m, hm, hfm, -⟩ := roundF32_pos_eq x h
    rw [hm]
    have hu : (0 : ℚ) < (2 : ℚ) ^ (Int.log 2 x - 23) := zpow_pos (by norm_num) _
    have hf : 0 ≤ ⌊x / (2 : ℚ) ^ (Int.log 2 x - 23)⌋ := Int.floor_nonneg.2 (div_pos h hu).le
    have hm0 : (0 : ℚ) ≤ (m : ℚ) := by exact_mod_cast le_trans hf hfm
    exact mul_nonneg hm0 hu.le

/-- Rounding never crosses a `float`: a value at most `y = M · 2^E` with a significand
`M < 2^24` rounds to at most `y`. -/
theorem roundF32_le_of_le (x y : ℚ) (hx : 0 ≤ x) (hxy : x ≤ y) (M : ℕ) (E : ℤ)
    (hM : M < 2 ^ 24) (hy : y = (M : ℚ) * (2 : ℚ) ^ E) : roundF32 x ≤ y := by
  rcases hx.eq_or_lt with h0 | hpos
  · rw [← h0, roundF32_zero]
    exact le_trans hx hxy
  obtain ⟨m, hm, -, hmY⟩ := roundF32_pos_eq x hpos
  have hlog1 : (2 : ℚ) ^ Int.log 2 x ≤ x := by
    have := Int.zpow_log_le_self (b := 2) (r := x) (by norm_num) hpos
    simpa using this
  have hu : (0 : ℚ) < (2 : ℚ) ^ (Int.log 2 x - 23) := zpow_pos (by norm_num) _
  rw [hm]
  by_cases hk : 0 ≤ E - Int.log 2 x + 23
  · -- `y` is a whole number of units
    obtain ⟨k, hk2⟩ := Int.eq_ofNat_of_zero_le hk
    have hY : y / (2 : ℚ) ^ (Int.log 2 x - 23) = (((M * 2 ^ k : ℕ) : ℤ) : ℚ) := by
      rw [hy, mul_div_assoc, ← zpow_sub₀ (by norm_num : (2 : ℚ) ≠ 0)]
      have : E - (Int.log 2 x - 23) = (k : ℤ) := by omega
      rw [this, zpow_natCast]
      push_cast
      ring
    have hle : x / (2 : ℚ) ^ (Int.log 2 x - 23) ≤ (((M * 2 ^ k : ℕ) : ℤ) : ℚ) := by
      rw [← hY]
      exact div_le_div_of_nonneg_right hxy hu.le
    have hmle := hmY _ hle
    have : (m : ℚ) ≤ y / (2 : ℚ) ^ (Int.log 2 x - 23) := by
      rw [hY]
      exact_mod_cast hmle
    calc (m : ℚ) * (2 : ℚ) ^ (Int.log 2 x - 23)
        ≤ y / (2 : ℚ) ^ (Int.log 2 x - 23) * (2 : ℚ) ^ (Int.log 2 x - 23) :=
          mul_le_mul_of_nonneg_right this hu.le
      _ = y := div_mul_cancel₀ y hu.ne'
  · -- `y` would lie below the binade of `x`
    exfalso
    have hE : E + 24 ≤ Int.log 2 x := by omega
    have h1 : y < (2 : ℚ) ^ (E + 24) := by
      rw [hy, zpow_add₀ (by norm_num : (2 : ℚ) ≠ 0), mul_comm]
      have hMq : (M : ℚ) < (2 : ℚ) ^ (24 : ℤ) := by
        have h24 : (2 : ℚ) ^ (24 : ℤ) = ((2 ^ 24 : ℕ) : ℚ) := by norm_num
        rw [h24]
        exact_mod_cast hM
      exact mul_lt_mul_of_pos_left hMq (zpow_pos (by norm_num) _)
    have h2 : (2 : ℚ) ^ (E + 24) ≤ (2 : ℚ) ^ Int.log 2 x :=
      zpow_le_zpow_right₀ (by norm_num) hE
    linarith

/-- A whole number below 2^24 is a `float`: the conversion `(float)n` is exact. -/
theorem roundF32_natCast (n : ℕ) (hn : n < 2 ^ 24) : roundF32 (n : ℚ) = n := by
  rcases Nat.eq_zero_or_pos n with h0 | hpos
  · rw [h0, Nat.cast_zero, roundF32_zero]
  have hq : (0 : ℚ) < (n : ℚ) := by exact_mod_cast hpos
  obtain ⟨m, hm, hfm, hmY⟩ := roundF32_pos_eq (n : ℚ) hq
  have hlog : Int.log 2 (n : ℚ) = (Nat.log 2 n : ℤ) := Int.log_natCast 2 n
  have hl : Nat.log 2 n < 24 := Nat.log_lt_of_lt_pow (by omega) hn
  obtain ⟨k, hk⟩ : ∃ k : ℕ, (23 : ℤ) - Nat.log 2 n = k := ⟨23 - Nat.log 2 n, by omega⟩
  have hu : (0 : ℚ) < (2 : ℚ) ^ (Int.log 2 (n : ℚ) - 23) := zpow_pos (by norm_num) _
  have ht : (n : ℚ) / (2 : ℚ) ^ (Int.log 2 (n : ℚ) - 23) = (((n * 2 ^ k : ℕ) : ℤ) : ℚ) := by
    rw [div_eq_mul_inv, ← zpow_neg]
    have : -(Int.log 2 (n : ℚ) - 23) = (k : ℤ) := by omega
    rw [this, zpow_natCast]
    push_cast
    ring
  have h1 : m ≤ ((n * 2 ^ k : ℕ) : ℤ) := hmY _ ht.le
  have h2 : ((n * 2 ^ k : ℕ) : ℤ) ≤ m := by
    rw [ht, Int.floor_intCast] at hfm
    exact hfm
  have hmeq : m = ((n * 2 ^ k : ℕ) : ℤ) := le_antisymm h1 h2
  rw [hm, hmeq, ← ht]
  exact div_mul_cancel₀ _ hu.ne'

/-- With a limit below the over-limit side, the computed other side is a whole number between
0 and the old other side. -/
theorem scaledSide_bounds (other : ℕ) (max_dim : ℤ) (over : ℕ) (ho : other < 2 ^ 24)
    (hm1 : 1 ≤ max_dim) (hmo : max_dim < over) (hov : over < 2 ^ 24) :
    0 ≤ scaledSide other max_dim over ∧ scaledSide other max_dim over ≤ other := by
  obtain ⟨m, rfl⟩ := Int.eq_ofNat_of_zero_le (by omega : 0 ≤ max_dim)
  have hm : m < 2 ^ 24 := by omega
  have hmo2 : m < over := by exact_mod_cast hmo
  have hover : (0 : ℚ) < (over : ℚ) := by
    have : 0 < over := by omega
    exact_mod_cast this
  unfold scaledSide
  have e1 : roundF32 (((m : ℕ) : ℤ) : ℚ) = (m : ℚ) := by
    rw [Int.cast_natCast]
    exact roundF32_natCast m hm
  rw [roundF32_natCast other ho, e1, roundF32_natCast over hov]
  have hq0 : (0 : ℚ) ≤ (m : ℚ) / (over : ℚ) := by positivity
  have hq1 : (m : ℚ) / (over : ℚ) ≤ 1 := by
    rw [div_le_one hover]
    exact_mod_cast hmo2.le
  have hr0 := roundF32_nonneg _ hq0
  have hr1 : roundF32 ((m : ℚ) / (over : ℚ)) ≤ 1 :=
    roundF32_le_of_le _ 1 hq0 hq1 1 0 (by norm_num) (by norm_num)
  have hp0 : (0 : ℚ) ≤ (other : ℚ) * roundF32 ((m : ℚ) / (over : ℚ)) := by positivity
  have hp1 : (other : ℚ) * roundF32 ((m : ℚ) / (over : ℚ)) ≤ (other : ℚ) := by
    have : (0 : ℚ) ≤ (other : ℚ) := by positivity
    nlinarith
  have hs0 := roundF32_nonneg _ hp0
  have hs1 : roundF32 ((other : ℚ) * roundF32 ((m : ℚ) / (over : ℚ))) ≤ (other : ℚ) :=
    roundF32_le_of_le _ _ hp0 hp1 other 0 ho (by norm_num)
  constructor
  · exact Int.floor_nonneg.2 hs0
  · have : ((⌊roundF32 ((other : ℚ) * roundF32 ((m : ℚ) / (over : ℚ)))⌋ : ℤ) : ℚ)
        ≤ ((other : ℤ) : ℚ) := by
      rw [Int.cast_natCast]
      exact le_trans (Int.floor_le _) hs1
    exact_mod_cast this

theorem resize_limit_succ (fuel : ℕ) (input : Frame) (max_dim : ℤ) :
    resize_limit (fuel + 1) input max_dim
      = if (input.cols : ℤ) > max_dim then
          match resize input max_dim (scaledSide input.rows max_dim input.cols) with
          | none => Run.raised
          | some input1 => resize_limit fuel input1 max_dim
        else if (input.rows : ℤ) > max_dim then
          match resize input (scaledSide input.cols max_dim input.rows) max_dim with
          | none => Run.raised
          | some input1 => resize_limit fuel input1 max_dim
        else Run.finished input := rfl

theorem resize_eq_some (input : Frame) (width height : ℤ) (h1 : input.rows ≠ 0)
    (h2 : input.cols ≠ 0) (hw : 0 < width) (hh : 0 < height) :
    resize input width height = some { rows := height.toNat, cols := width.toNat } := by
  unfold resize
  rw [if_neg]
  omega

theorem resize_eq_none_height (input : Frame) (width height : ℤ) (hh : height ≤ 0) :
    resize input width height = none := by
  unfold resize
  rw [if_pos]
  omega

theorem resize_eq_none_width (input : Frame) (width height : ℤ) (hw : width ≤ 0) :
    resize input width height = none := by
  unfold resize
  rw [if_pos]
  omega

/-- A frame within the limit is left as it is. -/
theorem resize_limit_within (fuel : ℕ) (input : Frame) (max_dim : ℤ)
    (hc : (input.cols : ℤ) ≤ max_dim) (hr : (input.rows : ℤ) ≤ max_dim) :
    resize_limit (fuel + 1) input max_dim = Run.finished input := by
  rw [resize_limit_succ, if_neg (by omega), if_neg (by omega)]

/-- A frame with too many rows only: one resize step. -/
theorem resize_limit_rows (fuel : ℕ) (rows cols : ℕ) (max_dim : ℤ) (hr : 1 ≤ rows)
    (hc : 1 ≤ cols) (hm : 1 ≤ max_dim) (hr2 : rows < 2 ^ 24) (hc2 : cols < 2 ^ 24)
    (hcm : (cols : ℤ) ≤ max_dim) (hrm : max_dim < rows) :
    resize_limit (fuel + 2) { rows := rows, cols := cols } max_dim
      = if scaledSide cols max_dim rows ≤ 0 then Run.raised
        else Run.finished
          { rows := max_dim.toNat, cols := (scaledSide cols max_dim rows).toNat } := by
  rw [resize_limit_succ, if_neg (by simp only []; omega), if_pos (by simp only []; omega)]
  simp only []
  have hb := scaledSide_bounds cols max_dim rows hc2 hm hrm hr2
  split_ifs with h0
  · rw [resize_eq_none_width _ _ _ h0]
  · rw [resize_eq_some _ _ _ (by simp only []; omega) (by simp only []; omega) (by omega)
      (by omega)]
    simp only []
    apply resize_limit_within
    · simp only []
      omega
    · simp only []
      omega

/-- The run of `resize_limit` in closed form: at most two resize steps, an OpenCV error
exactly when a computed side is 0. -/
theorem resize_limit_eq (rows cols : ℕ) (max_dim : ℤ) (f : ℕ)
    (hr : 1 ≤ rows) (hc : 1 ≤ cols) (hm : 1 ≤ max_dim)
    (hr2 : rows < 2 ^ 24) (hc2 : cols < 2 ^ 24) (hm2 : max_dim < 2 ^ 24) :
    resize_limit (f + 3) { rows := rows, cols := cols } max_dim
      = (if max_dim < cols then
          if scaledSide rows max_dim cols ≤ 0 then Run.raised
          else if max_dim < scaledSide rows max_dim cols then
            if scaledSide max_dim.toNat max_dim (scaledSide rows max_dim cols).toNat ≤ 0 then
              Run.raised
            else
              Run.finished
                { rows := max_dim.toNat
                  cols := (scaledSide max_dim.toNat max_dim
                    (scaledSide rows max_dim cols).toNat).toNat }
          else Run.finished { rows := (scaledSide rows max_dim cols).toNat, cols := max_dim.toNat }
        else if max_dim < rows then
          if scaledSide cols max_dim rows ≤ 0 then Run.raised
          else Run.finished { rows := max_dim.toNat, cols := (scaledSide cols max_dim rows).toNat }
        else Run.finished { rows := rows, cols := cols }) := by
  by_cases h1 : max_dim < cols
  · rw [if_pos h1, resize_limit_succ, if_pos (by simp only []; omega)]
    simp only []
    have hb := scaledSide_bounds rows max_dim cols hr2 hm h1 hc2
    by_cases h0 : scaledSide rows max_dim cols ≤ 0
    · rw [if_pos h0, resize_eq_none_height _ _ _ h0]
    · rw [if_neg h0, resize_eq_some _ _ _ (by simp only []; omega) (by simp only []; omega)
        (by omega) (by omega)]
      simp only []
      by_cases h2 : max_dim < scaledSide rows max_dim cols
      · rw [if_pos h2]
        have e := resize_limit_rows f (scaledSide rows max_dim cols).toNat max_dim.toNat
          max_dim (by omega) (by omega) hm (by omega) (by omega) (by omega) (by omega)
        rw [e]
      · rw [if_neg h2]
        apply resize_limit_within
        · simp only []
          omega
        · simp only []
          omega
  · rw [if_neg h1]
    by_cases h2 : max_dim < rows
    · rw [if_pos h2]
      exact resize_limit_rows (f + 1) rows cols max_dim hr hc hm hr2 hc2 (by omega) h2
    · rw [if_neg h2]
      apply resize_limit_within
      · simp only []
        omega
      · simp only []
        omega

/-- C8, as amended.  For every frame with `1 ≤ rows, cols < 2^24` and every limit
`1 ≤ max_dim < 2^24`, the recursion of `resize_limit` ends within three levels; each resize
step sets the over-limit side to `max_dim` and the other side to the single-precision value
`(int)floorf((float)other * ((float)max_dim / (float)over))`; the run ends in an OpenCV
error exactly when such a side comes out as 0, and otherwise with a frame that has
`cols ≤ max_dim`, `rows ≤ max_dim` and no empty side. -/
theorem C8_resize_limit_caps (rows cols : ℕ) (max_dim : ℤ) (fuel : ℕ)
    (hr : 1 ≤ rows) (hc : 1 ≤ cols) (hm : 1 ≤ max_dim)
    (hr2 : rows < 2 ^ 24) (hc2 : cols < 2 ^ 24) (hm2 : max_dim < 2 ^ 24) (hf : 3 ≤ fuel) :
    resize_limit fuel { rows := rows, cols := cols } max_dim
      = (if max_dim < cols then
          if scaledSide rows max_dim cols ≤ 0 then Run.raised
          else if max_dim < scaledSide rows max_dim cols then
            if scaledSide max_dim.toNat max_dim (scaledSide rows max_dim cols).toNat ≤ 0 then
              Run.raised
            else
              Run.finished
                { rows := max_dim.toNat
                  cols := (scaledSide max_dim.toNat max_dim
                    (scaledSide rows max_dim cols).toNat).toNat }
          else Run.finished { rows := (scaledSide rows max_dim cols).toNat, cols := max_dim.toNat }
        else if max_dim < rows then
          if scaledSide cols max_dim rows ≤ 0 then Run.raised
          else Run.finished { rows := max_dim.toNat, cols := (scaledSide cols max_dim rows).toNat }
        else Run.finished { rows := rows, cols := cols }) ∧
    ∀ out, resize_limit fuel { rows := rows, cols := cols } max_dim = Run.finished out →
      (out.cols : ℤ) ≤ max_dim ∧ (out.rows : ℤ) ≤ max_dim ∧ 1 ≤ out.rows ∧ 1 ≤ out.cols := by
  obtain ⟨f, rfl⟩ : ∃ f, fuel = f + 3 := ⟨fuel - 3, by omega⟩
  have main := resize_limit_eq rows cols max_dim f hr hc hm hr2 hc2 hm2
  refine ⟨main, ?_⟩
  intro out hout
  rw [main] at hout
  by_cases h1 : max_dim < cols
  · rw [if_pos h1] at hout
    have hb := scaledSide_bounds rows max_dim cols hr2 hm h1 hc2
    by_cases h0 : scaledSide rows max_dim cols ≤ 0
    · rw [if_pos h0] at hout
      exact absurd hout (by simp)
    · rw [if_neg h0] at hout
      by_cases h2 : max_dim < scaledSide rows max_dim cols
      · rw [if_pos h2] at hout
        have hb2 := scaledSide_bounds max_dim.toNat max_dim (scaledSide rows max_dim cols).toNat
          (by omega) hm (by omega) (by omega)
        by_cases h3 : scaledSide max_dim.toNat max_dim (scaledSide rows max_dim cols).toNat ≤ 0
        · rw [if_pos h3] at hout
          exact absurd hout (by simp)
        · rw [if_neg h3] at hout
          simp only [Run.finished.injEq] at hout
          subst hout
          simp only []
          omega
      · rw [if_neg h2] at hout
        simp only [Run.finished.injEq] at hout
        subst hout
        simp only []
        omega
  · rw [if_neg h1] at hout
    by_cases h2 : max_dim < rows
    · rw [if_pos h2] at hout
      have hb := scaledSide_bounds cols max_dim rows hc2 hm h2 hr2
      by_cases h0 : scaledSide cols max_dim rows ≤ 0
      · rw [if_pos h0] at hout
        exact absurd hout (by simp)
      · rw [if_neg h0] at hout
        simp only [Run.finished.injEq] at hout
        subst hout
        simp only []
        omega
    · rw [if_neg h2] at hout
      simp only [Run.finished.injEq] at hout
      subst hout
      simp only []
      omega

theorem log_two_eq (x : ℚ) (e : ℤ) (hx : 0 < x) (h1 : (2 : ℚ) ^ e ≤ x)
    (h2 : x < (2 : ℚ) ^ (e + 1)) : Int.log 2 x = e := by
  have a1 : (2 : ℚ) ^ Int.log 2 x ≤ x := by
    have := Int.zpow_log_le_self (b := 2) (r := x) (by norm_num) hx
    simpa using this
  have a2 : x < (2 : ℚ) ^ (Int.log 2 x + 1) := by
    have := Int.lt_zpow_succ_log_self (b := 2) (by norm_num) x
    simpa using this
  have mono := zpow_right_strictMono₀ (a := (2 : ℚ)) (by norm_num)
  have b1 : Int.log 2 x < e + 1 := mono.lt_iff_lt.1 (lt_of_le_of_lt a1 h2)
  have b2 : e < Int.log 2 x + 1 := mono.lt_iff_lt.1 (lt_of_le_of_lt h1 a2)
  omega

/-- Evaluating `roundF32` at a positive value: in the binade `[2^e, 2^(e+1))` the result is
the multiple `m · 2^(e-23)` that lies less than half a unit from the value. -/
theorem roundF32_eval (x : ℚ) (e m : ℤ) (hx : 0 < x) (h1 : (2 : ℚ) ^ e ≤ x)
    (h2 : x < (2 : ℚ) ^ (e + 1)) (h3 : |x / (2 : ℚ) ^ (e - 23) - m| < 1 / 2) :
    roundF32 x = m * (2 : ℚ) ^ (e - 23) := by
  have hlog := log_two_eq x e hx h1 h2
  unfold roundF32
  rw [if_neg hx.ne']
  simp only [abs_of_pos hx, if_pos hx, hlog]
  rw [abs_lt] at h3
  have hfl : ⌊x / (2 : ℚ) ^ (e - 23)⌋ = m ∨ ⌊x / (2 : ℚ) ^ (e - 23)⌋ = m - 1 := by
    by_cases hge : (m : ℚ) ≤ x / (2 : ℚ) ^ (e - 23)
    · left
      rw [Int.floor_eq_iff]
      constructor
      · exact hge
      · linarith
    · right
      rw [Int.floor_eq_iff]
      push_cast
      constructor <;> linarith
  rcases hfl with hf | hf
  · rw [hf]
    rw [if_pos (by linarith)]
  · rw [hf]
    push_cast
    rw [if_neg (by linarith), if_pos (by linarith)]
    ring

/-- The side computed for a frame of 1 row and 1000 columns under the limit 360 is 0. -/
theorem scaledSide_thin : scaledSide 1 360 1000 = 0 := by
  have q2 : roundF32 ((360 : ℚ) / 1000) = 12079596 * (2 : ℚ) ^ ((-2 : ℤ) - 23) :=
    roundF32_eval _ (-2) 12079596 (by norm_num) (by norm_num) (by norm_num)
      (by rw [abs_lt]; constructor <;> norm_num)
  have p2 : roundF32 ((1 : ℚ) * (12079596 * (2 : ℚ) ^ ((-2 : ℤ) - 23)))
      = 12079596 * (2 : ℚ) ^ ((-2 : ℤ) - 23) :=
    roundF32_eval _ (-2) 12079596 (by norm_num) (by norm_num) (by norm_num)
      (by rw [abs_lt]; constructor <;> norm_num)
  unfold scaledSide
  have e1 : roundF32 ((1 : ℕ) : ℚ) = ((1 : ℕ) : ℚ) := roundF32_natCast 1 (by norm_num)
  have e360 : roundF32 ((360 : ℕ) : ℚ) = ((360 : ℕ) : ℚ) := roundF32_natCast 360 (by norm_num)
  have e1000 : roundF32 ((1000 : ℕ) : ℚ) = ((1000 : ℕ) : ℚ) :=
    roundF32_natCast 1000 (by norm_num)
  have c360 : (((360 : ℤ) : ℚ)) = ((360 : ℕ) : ℚ) := by norm_num
  rw [c360, e1, e360, e1000]
  have : (((360 : ℕ) : ℚ)) / ((1000 : ℕ) : ℚ) = (360 : ℚ) / 1000 := by norm_num
  rw [this, q2]
  have : (((1 : ℕ) : ℚ)) = (1 : ℚ) := by norm_num
  rw [this, p2, Int.floor_eq_iff]
  constructor <;> norm_num

/-- C8, the counterexample.  A frame of 69 rows and 414 columns is resized to 59 rows (the
single-precision product is just below 60) although `floor(69 · 360 / 414) = 60`; and for a
frame of 1 row and 1000 columns the computed side is 0, `cv::resize` raises an error and no
frame results. -/
theorem C8_counterexample :
    resize_limit 3 { rows := 69, cols := 414 } 360 = Run.finished { rows := 59, cols := 360 } ∧
      (69 * 360 / 414 : ℕ) = 60 ∧
      resize_limit 3 { rows := 1, cols := 1000 } 360 = Run.raised := by
  have q1 : roundF32 ((360 : ℚ) / 414) = 14588883 * (2 : ℚ) ^ ((-1 : ℤ) - 23) :=
    roundF32_eval _ (-1) 14588883 (by norm_num) (by norm_num) (by norm_num)
      (by rw [abs_lt]; constructor <;> norm_num)
  have p1 : roundF32 ((69 : ℚ) * (14588883 * (2 : ℚ) ^ ((-1 : ℤ) - 23)))
      = 15728639 * (2 : ℚ) ^ ((5 : ℤ) - 23) :=
    roundF32_eval _ 5 15728639 (by norm_num) (by norm_num) (by norm_num)
      (by rw [abs_lt]; constructor <;> norm_num)
  have s1 : scaledSide 69 360 414 = 59 := by
    unfold scaledSide
    have e69 : roundF32 ((69 : ℕ) : ℚ) = ((69 : ℕ) : ℚ) := roundF32_natCast 69 (by norm_num)
    have e360 : roundF32 ((360 : ℕ) : ℚ) = ((360 : ℕ) : ℚ) := roundF32_natCast 360 (by norm_num)
    have e414 : roundF32 ((414 : ℕ) : ℚ) = ((414 : ℕ) : ℚ) := roundF32_natCast 414 (by norm_num)
    have c360 : (((360 : ℤ) : ℚ)) = ((360 : ℕ) : ℚ) := by norm_num
    rw [c360, e69, e360, e414]
    have : (((360 : ℕ) : ℚ)) / ((414 : ℕ) : ℚ) = (360 : ℚ) / 414 := by norm_num
    rw [this, q1]
    have : (((69 : ℕ) : ℚ)) = (69 : ℚ) := by norm_num
    rw [this, p1, Int.floor_eq_iff]
    constructor <;> norm_num
  have s2 := scaledSide_thin
  refine ⟨?_, by norm_num, ?_⟩
  · have h := resize_limit_eq 69 414 360 0 (by norm_num) (by norm_num) (by norm_num)
      (by norm_num) (by norm_num) (by norm_num)
    rw [h, s1]
    rfl
  · have h := resize_limit_eq 1 1000 360 0 (by norm_num) (by norm_num) (by norm_num)
      (by norm_num) (by norm_num) (by norm_num)
    rw [h, s2]
    rfl

/-- The side computed for a frame of 1080 rows and 1920 columns under the limit 360:
every intermediate value is a single-precision number, so the result is `floor(202.5)`. -/
theorem scaledSide_hd : scaledSide 1080 360 1920 = 202 := by
  have q : roundF32 ((360 : ℚ) / 1920) = 12582912 * (2 : ℚ) ^ ((-3 : ℤ) - 23) :=
    roundF32_eval _ (-3) 12582912 (by norm_num) (by norm_num) (by norm_num)
      (by rw [abs_lt]; constructor <;> norm_num)
  have p : roundF32 ((1080 : ℚ) * (12582912 * (2 : ℚ) ^ ((-3 : ℤ) - 23)))
      = 13271040 * (2 : ℚ) ^ ((7 : ℤ) - 23) :=
    roundF32_eval _ 7 13271040 (by norm_num) (by norm_num) (by norm_num)
      (by rw [abs_lt]; constructor <;> norm_num)
  unfold scaledSide
  have e1 : roundF32 ((1080 : ℕ) : ℚ) = ((1080 : ℕ) : ℚ) := roundF32_natCast 1080 (by norm_num)
  have e360 : roundF32 ((360 : ℕ) : ℚ) = ((360 : ℕ) : ℚ) := roundF32_natCast 360 (by norm_num)
  have e2 : roundF32 ((1920 : ℕ) : ℚ) = ((1920 : ℕ) : ℚ) := roundF32_natCast 1920 (by norm_num)
  have c360 : (((360 : ℤ) : ℚ)) = ((360 : ℕ) : ℚ) := by norm_num
  rw [c360, e1, e360, e2]
  have : (((360 : ℕ) : ℚ)) / ((1920 : ℕ) : ℚ) = (360 : ℚ) / 1920 := by norm_num
  rw [this, q]
  have : (((1080 : ℕ) : ℚ)) = (1080 : ℚ) := by norm_num
  rw [this, p, Int.floor_eq_iff]
  constructor <;> norm_num

/-- The amended C8 at a frame of 1080 rows and 1920 columns with the limit 360 of
`video_loop`: one resize step gives 202 rows and 360 columns, both within the limit. -/
theorem C8_resize_limit_caps_witness :
    resize_limit 3 { rows := 1080, cols := 1920 } 360
        = Run.finished { rows := 202, cols := 360 } ∧
      ∀ out, resize_limit 3 { rows := 1080, cols := 1920 } 360 = Run.finished out →
        (out.cols : ℤ) ≤ 360 ∧ (out.rows : ℤ) ≤ 360 ∧ 1 ≤ out.rows ∧ 1 ≤ out.cols := by
  have h := C8_resize_limit_caps 1080 1920 360 3 (by decide) (by decide) (by decide)
    (by decide) (by decide) (by decide) (by decide)
  refine ⟨?_, h.2⟩
  rw [h.1, if_pos (by decide), scaledSide_hd, if_neg (by decide), if_neg (by decide)]
  rfl

/-! ### The frame loop -/

/-- C's truncating quotient by a positive divisor is at least 1 exactly when the dividend
reaches the divisor. -/
theorem tdiv_ge_one_iff (x w : ℤ) (hw : 0 < w) : x.tdiv w ≥ 1 ↔ w ≤ x := by
  rcases le_or_lt 0 x with hx | hx
  · rw [Int.tdiv_eq_ediv hx hw.le, ge_iff_le, Int.le_ediv_iff_mul_le hw, one_mul]
  · have h1 : x.tdiv w ≤ 0 := by
      have := Int.tdiv_nonneg (a := -x) (b := w) (by omega) hw.le
      rw [Int.neg_tdiv] at this
      omega
    constructor
    · intro h
      omega
    · intro h
      omega

/-- A pass with the time gate shut only reads the clock into `end`. -/
theorem passes_shut (w : World) (wait : ℤ) (depth fuel : ℕ) (s : LoopState) (hw : 0 < wait)
    (hshut : s.end_ - s.begin_ < wait) :
    video_loop_passes w wait depth (fuel + 1) s
      = video_loop_passes w wait depth fuel
          { s with end_ := w.clock s.clockCalls, clockCalls := s.clockCalls + 1 } := by
  have h1 : ¬((s.end_ - s.begin_).tdiv wait ≥ 1) := by
    rw [tdiv_ge_one_iff _ _ hw]
    omega
  rw [video_loop_passes, if_neg hw.ne', if_neg h1]

/-- A pass with the gate open whose read fails returns `EXIT_FAILURE` at once: no frame is
analysed and the failed read is the last one. -/
theorem passes_open_read_fails (w : World) (wait : ℤ) (depth fuel : ℕ) (s : LoopState)
    (hw : 0 < wait) (hopen : wait ≤ s.end_ - s.begin_) (hread : w.read s.readCalls = none) :
    ∃ s1, video_loop_passes w wait depth (fuel + 1) s = Run.finished (EXIT_FAILURE, s1) ∧
      s1.readCalls = s.readCalls + 1 ∧ s1.analysed = s.analysed := by
  have h1 : (s.end_ - s.begin_).tdiv wait ≥ 1 := (tdiv_ge_one_iff _ _ hw).2 hopen
  rw [video_loop_passes, if_neg hw.ne', if_pos h1]
  by_cases hsec : (s.end_ - s.begin_sec).tdiv w.CLOCKS_PER_SEC ≥ 1
  · simp only [if_pos hsec, hread]
    exact ⟨_, rfl, rfl, rfl⟩
  · simp only [if_neg hsec, hread]
    exact ⟨_, rfl, rfl, rfl⟩

theorem frameAnalysisMask_ones (frame : Frame) (h1 : 1 ≤ frame.rows) (h2 : 1 ≤ frame.cols) :
    ∃ mask, frameAnalysisMask frame (Mat.ones frame.rows frame.cols) = some mask := by
  unfold frameAnalysisMask
  rw [if_neg (by omega)]
  simp only [Mat.ones, and_self, if_true]
  exact ⟨_, rfl⟩

/-- The mask that `frameAnalysisMask` computes from the sizes is the mask that
`frame_analysis` leaves, and the one fails exactly when the other does (the empty frame). -/
theorem frameAnalysisMask_frame_analysis {R C : Nat} (d : Display) (grey : Grid R C ℝ)
    (mask : Grid R C Nat) :
    frameAnalysisMask { rows := R, cols := C } { rows := R, cols := C, data := mask }
      = (frame_analysis d grey mask).map
          (fun out => ({ rows := R, cols := C, data := out.mask } : Mat Nat)) := by
  by_cases hne : R = 0 ∨ C = 0
  · have h : frame_analysis d grey mask = none := by
      unfold frame_analysis
      rw [FFT_complex_output_empty grey hne]
    rw [h]
    unfold frameAnalysisMask
    rw [if_pos hne]
    rfl
  · obtain ⟨out, ho, hm, _⟩ := frame_analysis_eq d grey mask hne
    rw [ho]
    unfold frameAnalysisMask
    rw [if_neg hne]
    simp only [and_self, if_true, Option.map_some', hm]

/-- A pass with the gate open on the first frame, with no key pressed: the frame is read,
resized, analysed once, and the loop goes on. -/
theorem passes_open_first_frame (w : World) (wait : ℤ) (depth : ℕ) (s : LoopState)
    (f frame : Frame) (hw : 0 < wait) (hopen : wait ≤ s.end_ - s.begin_)
    (hread : w.read s.readCalls = some f)
    (hres : resize_limit depth f 360 = Run.finished frame)
    (h1 : 1 ≤ frame.rows) (h2 : 1 ≤ frame.cols) (hfirst : s.first = true)
    (hkey : w.waitKey s.keyCalls < 0) :
    ∃ s1, (∀ fuel, video_loop_passes w wait depth (fuel + 1) s
        = video_loop_passes w wait depth fuel s1) ∧
      s1.readCalls = s.readCalls + 1 ∧ s1.analysed = s.analysed + 1 := by
  have hg : (s.end_ - s.begin_).tdiv wait ≥ 1 := (tdiv_ge_one_iff _ _ hw).2 hopen
  have hk : ¬(w.waitKey s.keyCalls ≥ 0) := by omega
  obtain ⟨mask, hmask⟩ := frameAnalysisMask_ones frame h1 h2
  by_cases hsec : (s.end_ - s.begin_sec).tdiv w.CLOCKS_PER_SEC ≥ 1
  · refine ⟨?s1, ?h1, ?h2, ?h3⟩
    case h1 =>
      intro fuel
      rw [video_loop_passes, if_neg hw.ne', if_pos hg]
      simp only [if_pos hsec, hread, hres, hfirst, if_true, hmask, if_neg hk]
      exact rfl
    case h2 => exact rfl
    case h3 => exact rfl
  · refine ⟨?t1, ?h1, ?h2, ?h3⟩
    case h1 =>
      intro fuel
      rw [video_loop_passes, if_neg hw.ne', if_pos hg]
      simp only [if_neg hsec, hread, hres, hfirst, if_true, hmask, if_neg hk]
      exact rfl
    case h2 => exact rfl
    case h3 => exact rfl

/-- While the clock keeps advancing the shut gate opens: after some passes that only read
the clock the loop stands at the same state with a later `end` and an open gate. -/
theorem passes_spin (w : World) (wait : ℤ) (depth : ℕ) (hw : 0 < wait) (d : ℕ) :
    ∀ s : LoopState, s.begin_ + wait ≤ w.clock (s.clockCalls + d) →
      ∃ (n : ℕ) (e : ℤ) (k : ℕ), wait ≤ e - s.begin_ ∧
        ∀ fuel, video_loop_passes w wait depth (fuel + n) s
          = video_loop_passes w wait depth fuel { s with end_ := e, clockCalls := k } := by
  induction d with
  | zero =>
    intro s hs
    by_cases hopen : wait ≤ s.end_ - s.begin_
    · exact ⟨0, s.end_, s.clockCalls, hopen, fun fuel => rfl⟩
    · refine ⟨1, w.clock s.clockCalls, s.clockCalls + 1, ?_, fun fuel => ?_⟩
      · rw [Nat.add_zero] at hs
        omega
      · exact passes_shut w wait depth fuel s hw (by omega)
  | succ d ih =>
    intro s hs
    by_cases hopen : wait ≤ s.end_ - s.begin_
    · exact ⟨0, s.end_, s.clockCalls, hopen, fun fuel => rfl⟩
    · have hs1 : s.begin_ + wait ≤ w.clock (s.clockCalls + 1 + d) := by
        rw [Nat.add_assoc, Nat.add_comm 1 d]
        exact hs
      obtain ⟨n, e, k, hopen1, hrun⟩ :=
        ih { s with end_ := w.clock s.clockCalls, clockCalls := s.clockCalls + 1 } hs1
      refine ⟨n + 1, e, k, hopen1, fun fuel => ?_⟩
      rw [← Nat.add_assoc, passes_shut w wait depth (fuel + n) s hw (by omega), hrun fuel]

theorem resize_some_nonempty (input out : Frame) (width height : ℤ)
    (h : resize input width height = some out) : 1 ≤ out.rows ∧ 1 ≤ out.cols := by
  unfold resize at h
  split_ifs at h with hc
  simp only [Option.some.injEq] at h
  subst h
  simp only []
  omega

/-- `resize_limit` never turns a non-empty frame into an empty one. -/
theorem resize_limit_nonempty (fuel : ℕ) :
    ∀ (input out : Frame) (max_dim : ℤ), 1 ≤ input.rows → 1 ≤ input.cols →
      resize_limit fuel input max_dim = Run.finished out → 1 ≤ out.rows ∧ 1 ≤ out.cols := by
  induction fuel with
  | zero =>
    intro input out max_dim _ _ h
    exact absurd h (by simp [resize_limit])
  | succ fuel ih =>
    intro input out max_dim h1 h2 h
    rw [resize_limit_succ] at h
    split_ifs at h with hc hr
    · split at h
      · exact absurd h (by simp)
      · rename_i input1 hres
        obtain ⟨a, b⟩ := resize_some_nonempty _ _ _ _ hres
        exact ih input1 out max_dim a b h
    · split at h
      · exact absurd h (by simp)
      · rename_i input1 hres
        obtain ⟨a, b⟩ := resize_some_nonempty _ _ _ _ hres
        exact ih input1 out max_dim a b h
    · simp only [Run.finished.injEq] at h
      subst h
      exact ⟨h1, h2⟩

/-- The run of the frame loop from a state that has read nothing yet, when the first read
yields a frame and the second fails. -/
theorem passes_one_frame (w : World) (wait : ℤ) (depth : ℕ) (f frame : Frame) (s : LoopState)
    (hw : 0 < wait) (hclock : ∀ (i : ℕ) (t : ℤ), ∃ j, i ≤ j ∧ t ≤ w.clock j)
    (hread0 : w.read 0 = some f) (hread1 : w.read 1 = none) (hkey : w.waitKey 0 < 0)
    (hres : resize_limit depth f 360 = Run.finished frame)
    (h1 : 1 ≤ frame.rows) (h2 : 1 ≤ frame.cols)
    (hs1 : s.readCalls = 0) (hs2 : s.keyCalls = 0) (hs3 : s.analysed = 0)
    (hs4 : s.first = true) :
    ∃ N, ∀ fuel, N ≤ fuel →
      ∃ s2, video_loop_passes w wait depth fuel s = Run.finished (EXIT_FAILURE, s2) ∧
        s2.analysed = 1 ∧ s2.readCalls = 2 := by
  -- the gate opens for the first time
  obtain ⟨j, hj1, hj2⟩ := hclock s.clockCalls (s.begin_ + wait)
  obtain ⟨d, rfl⟩ : ∃ d, j = s.clockCalls + d := ⟨j - s.clockCalls, by omega⟩
  obtain ⟨n0, e0, k0, hopen0, hrun0⟩ := passes_spin w wait depth hw d s hj2
  -- the first frame is processed
  obtain ⟨s1, hstep, hr1, ha1⟩ := passes_open_first_frame w wait depth
    { s with end_ := e0, clockCalls := k0 } f frame hw hopen0
    (by simp only []; rw [hs1]; exact hread0) hres h1 h2 hs4
    (by simp only []; rw [hs2]; exact hkey)
  simp only [] at hr1 ha1
  -- the gate opens for the second time
  obtain ⟨j, hj3, hj4⟩ := hclock s1.clockCalls (s1.begin_ + wait)
  obtain ⟨d1, rfl⟩ : ∃ d1, j = s1.clockCalls + d1 := ⟨j - s1.clockCalls, by omega⟩
  obtain ⟨n1, e1, k1, hopen1, hrun1⟩ := passes_spin w wait depth hw d1 s1 hj4
  -- the second read fails
  refine ⟨n0 + 1 + n1 + 1, fun fuel hfuel => ?_⟩
  obtain ⟨x, rfl⟩ : ∃ x, fuel = x + 1 + n1 + 1 + n0 := ⟨fuel - (n0 + 1 + n1 + 1), by omega⟩
  obtain ⟨s2, hfin, hr2, ha2⟩ := passes_open_read_fails w wait depth x
    { s1 with end_ := e1, clockCalls := k1 } hw hopen1
    (by simp only []; rw [hr1, hs1]; exact hread1)
  refine ⟨s2, ?_, ?_, ?_⟩
  · rw [hrun0, hstep, hrun1, hfin]
  · rw [ha2]
    simp only []
    omega
  · rw [hr2]
    simp only []
    omega

/-- A frame wider than the limit whose computed height is not positive is rejected by
`cv::resize` in the first step of `resize_limit`. -/
theorem resize_limit_raised (depth : ℕ) (input : Frame) (max_dim : ℤ)
    (hc : (input.cols : ℤ) > max_dim) (hs : scaledSide input.rows max_dim input.cols ≤ 0) :
    resize_limit (depth + 1) input max_dim = Run.raised := by
  rw [resize_limit_succ, if_pos hc, resize_eq_none_height _ _ _ hs]

/-- A frame of 1 row and 1000 columns is rejected under the limit 360, whatever the depth. -/
theorem resize_limit_thin (depth : ℕ) :
    resize_limit (depth + 1) { rows := 1, cols := 1000 } 360 = Run.raised :=
  resize_limit_raised depth { rows := 1, cols := 1000 } 360 (by decide)
    (le_of_eq scaledSide_thin)

/-- A pass with the gate open whose frame `cv::resize` rejects ends with the OpenCV error:
nothing is analysed. -/
theorem passes_open_resize_raises (w : World) (wait : ℤ) (depth fuel : ℕ) (s : LoopState)
    (f : Frame) (hw : 0 < wait) (hopen : wait ≤ s.end_ - s.begin_)
    (hread : w.read s.readCalls = some f) (hres : resize_limit depth f 360 = Run.raised) :
    video_loop_passes w wait depth (fuel + 1) s = Run.raised := by
  have h1 : (s.end_ - s.begin_).tdiv wait ≥ 1 := (tdiv_ge_one_iff _ _ hw).2 hopen
  rw [video_loop_passes, if_neg hw.ne', if_pos h1]
  by_cases hsec : (s.end_ - s.begin_sec).tdiv w.CLOCKS_PER_SEC ≥ 1
  · simp only [if_pos hsec, hread, hres]
  · simp only [if_neg hsec, hread, hres]

/-- The clock of `steadyWorld` passes every value. -/
theorem steadyWorld_clock (i : ℕ) (t : ℤ) : ∃ j, i ≤ j ∧ t ≤ steadyWorld.clock j := by
  refine ⟨i + t.toNat, Nat.le_add_right _ _, ?_⟩
  show t ≤ 7 * ((i + t.toNat : ℕ) : ℤ)
  have := Int.self_le_toNat t
  push_cast
  omega

/-- C9, amended.  Let the source report a frame rate between 1 and `CLOCKS_PER_SEC`, let the
clock keep advancing, let the first read yield a non-empty frame that `resize_limit` accepts,
let no key be pressed at the first poll and let the second read fail.  Then `video_loop`,
given enough passes, returns `EXIT_FAILURE` after exactly one call of `frame_analysis` and
exactly two reads, the failed one being the last. -/
theorem C9_second_read_fails (w : World) (drawing : Bool) (depth : ℕ) (f frame : Frame)
    (hfps : 1 ≤ w.fps_of_video) (hcps : w.fps_of_video ≤ w.CLOCKS_PER_SEC)
    (hclock : ∀ (i : ℕ) (t : ℤ), ∃ j, i ≤ j ∧ t ≤ w.clock j)
    (hread0 : w.read 0 = some f) (hread1 : w.read 1 = none) (hkey : w.waitKey 0 < 0)
    (hf1 : 1 ≤ f.rows) (hf2 : 1 ≤ f.cols)
    (hres : resize_limit depth f 360 = Run.finished frame) :
    ∃ N, ∀ fuel, N ≤ fuel →
      ∃ s, video_loop w drawing fuel depth = Run.finished (EXIT_FAILURE, s) ∧
        s.analysed = 1 ∧ s.readCalls = 2 := by
  have hw : 0 < w.CLOCKS_PER_SEC.tdiv w.fps_of_video := by
    have := (tdiv_ge_one_iff w.CLOCKS_PER_SEC w.fps_of_video (by omega)).2 hcps
    omega
  obtain ⟨h1, h2⟩ := resize_limit_nonempty depth f frame 360 hf1 hf2 hres
  have hfps0 : ¬(w.fps_of_video = 0) := by omega
  simp only [video_loop, if_neg hfps0]
  exact passes_one_frame w _ depth f frame _ hw hclock hread0 hread1 hkey hres h1 h2
    rfl rfl rfl rfl

/-- The amended C9 on `steadyWorld`: 25 frames per second, one frame of 240 × 320, then the
end of the stream. -/
theorem C9_second_read_fails_witness :
    ∃ N, ∀ fuel, N ≤ fuel →
      ∃ s, video_loop steadyWorld false fuel 3 = Run.finished (EXIT_FAILURE, s) ∧
        s.analysed = 1 ∧ s.readCalls = 2 :=
  C9_second_read_fails steadyWorld false 3 { rows := 240, cols := 320 }
    { rows := 240, cols := 320 } (by decide) (by decide) steadyWorld_clock rfl rfl (by decide)
    (by decide) (by decide) (resize_limit_within 2 _ 360 (by decide) (by decide))

/-- C9, the counterexample.  In `thinFrameWorld` the first read yields a frame, the second
read fails and no key is pressed, yet no frame is analysed and `EXIT_FAILURE` is not
returned: the sixth pass reads the frame of 1 row and 1000 columns, `resize_limit` computes a
side of 0 and the OpenCV error of `cv::resize` ends the run.  In `zeroRateWorld` the division
`CLOCKS_PER_SEC / fps_of_video` traps before the loop starts. -/
theorem C9_counterexample :
    (thinFrameWorld.read 0 = some { rows := 1, cols := 1000 } ∧ thinFrameWorld.read 1 = none ∧
        thinFrameWorld.waitKey 0 < 0) ∧
      (∀ fuel depth : ℕ, video_loop thinFrameWorld false (fuel + 6) (depth + 1) = Run.raised) ∧
      (zeroRateWorld.read 0 = some { rows := 240, cols := 320 } ∧ zeroRateWorld.read 1 = none) ∧
      (∀ fuel depth : ℕ, video_loop zeroRateWorld false fuel depth = Run.trapped) := by
  refine ⟨⟨rfl, rfl, by decide⟩, fun fuel depth => ?_, ⟨rfl, rfl⟩, fun fuel depth => rfl⟩
  unfold video_loop
  rw [if_neg (by decide)]
  have hwait : thinFrameWorld.CLOCKS_PER_SEC.tdiv thinFrameWorld.fps_of_video = 40 := by decide
  rw [hwait]
  rw [passes_shut _ _ _ _ _ (by decide) (by decide)]
  rw [passes_shut _ _ _ _ _ (by decide) (by decide)]
  rw [passes_shut _ _ _ _ _ (by decide) (by decide)]
  rw [passes_shut _ _ _ _ _ (by decide) (by decide)]
  rw [passes_shut _ _ _ _ _ (by decide) (by decide)]
  exact passes_open_resize_raises _ _ _ _ _ { rows := 1, cols := 1000 } (by decide) (by decide)
    rfl (resize_limit_thin depth)

end FFTDemon
